import Mathlib

/-!
Verification development for the CODESAGE code-graph indexer.

The persistent store (`src/storage/redis.ts`, `Storage` class) is embedded as an
untyped keyspace `Store := List (String × RVal)` mirroring Redis: hashes, sets,
sorted sets and plain strings, with association-list semantics matching Redis /
JS `Map` insertion-order behaviour.  Numeric hash fields (the `pageRank` mirror)
are modelled exactly as rationals instead of printed floats.  All operations used
by the claims — the `CLEANUP_SYMBOL_SCRIPT` Lua script, `setPageRanks`,
`getAllSymbols`, `getAllDependencies`, the resolver's `computePageRank`, the
scanner's `scan`, the indexer's file-tracking update, the resolver's
`resolveImportDependencies`, and the graph traversal's `analyzeImpact` /
`topologicalSort` — are translated function by function from the TypeScript and
Lua sources.
-/

namespace CodeSage

/-- Value stored in one hash field.  Redis stores strings; the `pageRank` mirror
is written with `score.toString()` and read back with `parseFloat`, which we
model losslessly as a rational. -/
inductive HVal where
  | str : String → HVal
  | num : ℚ → HVal
deriving DecidableEq, Repr

/-- A Redis value: hash, set, sorted set, or plain string. -/
inductive RVal where
  | hash : List (String × HVal) → RVal
  | set : List String → RVal
  | zset : List (String × ℚ) → RVal
  | strv : String → RVal
deriving DecidableEq, Repr

/-- The whole keyspace, in key insertion order. -/
abbrev Store := List (String × RVal)

/-- Association-list lookup (first match), used for the keyspace and for the
JS `Map`s in the TypeScript code. -/
def alookup {α : Type} (l : List (String × α)) (key : String) : Option α :=
  match l with
  | [] => none
  | (k', v) :: rest => if k' = key then some v else alookup rest key

/-- Association-list update: replace in place if the key exists (JS `Map.set`
keeps the original insertion position), else append. -/
def aset {α : Type} (l : List (String × α)) (key : String) (v : α) :
    List (String × α) :=
  match l with
  | [] => [(key, v)]
  | (k', v') :: rest =>
      if k' = key then (key, v) :: rest else (k', v') :: aset rest key v

/-- Association-list deletion of a key. -/
def adel {α : Type} (l : List (String × α)) (key : String) : List (String × α) :=
  match l with
  | [] => []
  | (k', v') :: rest =>
      if k' = key then adel rest key else (k', v') :: adel rest key

namespace Store

/-- Raw keyspace read. -/
def get (st : Store) (key : String) : Option RVal := alookup st key

/-- Raw keyspace write. -/
def setKey (st : Store) (key : String) (v : RVal) : Store := aset st key v

/-- Redis `DEL`. -/
def del (st : Store) (key : String) : Store := adel st key

/-- Redis `HGETALL`: all fields of a hash (empty when the key is absent). -/
def hgetall (st : Store) (key : String) : List (String × HVal) :=
  match st.get key with
  | some (RVal.hash fields) => fields
  | _ => []

/-- Redis `HSET` with several field/value pairs. -/
def hset (st : Store) (key : String) (pairs : List (String × HVal)) : Store :=
  st.setKey key (RVal.hash (pairs.foldl (fun acc p => aset acc p.1 p.2) (st.hgetall key)))

/-- Redis `SMEMBERS` (empty when the key is absent). -/
def smembers (st : Store) (key : String) : List String :=
  match st.get key with
  | some (RVal.set members) => members
  | _ => []

/-- Redis `SADD` of one member. -/
def sadd (st : Store) (key member : String) : Store :=
  let m := st.smembers key
  st.setKey key (RVal.set (if member ∈ m then m else m ++ [member]))

/-- Redis `SREM` of one member; Redis removes the key when the set empties. -/
def srem (st : Store) (key member : String) : Store :=
  let m := (st.smembers key).filter (fun x => x ≠ member)
  if m = [] then st.del key else st.setKey key (RVal.set m)

/-- Members and scores of a sorted set (empty when the key is absent). -/
def zmembers (st : Store) (key : String) : List (String × ℚ) :=
  match st.get key with
  | some (RVal.zset members) => members
  | _ => []

/-- Redis `ZADD` of one member. -/
def zadd (st : Store) (key : String) (score : ℚ) (member : String) : Store :=
  st.setKey key (RVal.zset (aset (st.zmembers key) member score))

/-- Redis `ZSCORE`. -/
def zscore (st : Store) (key member : String) : Option ℚ :=
  alookup (st.zmembers key) member

/-- Redis `ZREM`; Redis removes the key when the sorted set empties. -/
def zrem (st : Store) (key member : String) : Store :=
  let m := (st.zmembers key).filter (fun x => x.1 ≠ member)
  if m = [] then st.del key else st.setKey key (RVal.zset m)

/-- Value of one hash field. -/
def hfield (st : Store) (key field : String) : Option HVal :=
  alookup (st.hgetall key) field

end Store

/-- Character-list prefix test (models JS `String.startsWith` and the prefix
tests of Lua's plain-text `string.find`). -/
def isPreOf : List Char → List Char → Bool
  | [], _ => true
  | _ :: _, [] => false
  | a :: as, b :: bs => a = b && isPreOf as bs

/-- Split a string around the first occurrence of a pattern, returning the text
before and after it; `none` when the pattern does not occur.  Models Lua
`string.find` (plain) together with the uses the `CLEANUP_SYMBOL_SCRIPT` makes
of the position it returns. -/
def findSplit (pat : List Char) : List Char → Option (List Char × List Char)
  | [] => if pat = [] then some ([], []) else none
  | c :: rest =>
      if isPreOf pat (c :: rest) then some ([], (c :: rest).drop pat.length)
      else
        match findSplit pat rest with
        | some (pre, post) => some (c :: pre, post)
        | none => none

/-- Fuel-driven worker for `replaceAll`; every step consumes at least one
character, so `s.length` fuel suffices. -/
def replaceAllAux (pat rep : List Char) : ℕ → List Char → List Char
  | 0, s => s
  | _ + 1, [] => []
  | fuel + 1, c :: rest =>
      if pat ≠ [] ∧ isPreOf pat (c :: rest) then
        rep ++ replaceAllAux pat rep fuel ((c :: rest).drop pat.length)
      else c :: replaceAllAux pat rep fuel rest

/-- Replace every (left-to-right, non-overlapping) occurrence of a literal
pattern: Lua `string.gsub` with a pattern free of magic characters. -/
def replaceAll (s pat rep : String) : String :=
  String.mk (replaceAllAux pat.data rep.data s.data.length s.data)

/-- First-occurrence split at string level. -/
def splitFirst (s pat : String) : Option (String × String) :=
  (findSplit pat.data s.data).map (fun p => (String.mk p.1, String.mk p.2))

/-- Whether `pat` occurs in `s` (JS `String.includes`). -/
def hasSubstr (s pat : String) : Bool := (findSplit pat.data s.data).isSome

/-- Drop the first `n` characters (JS `String.slice(n)`). -/
def strDrop (s : String) (n : ℕ) : String := String.mk (s.data.drop n)

/-- Source location, as in `parsers/base.ts` (`{start, end: {line, column}}`). -/
structure Loc where
  startLine : ℕ
  startCol : ℕ
  endLine : ℕ
  endCol : ℕ
deriving DecidableEq, Repr

/-- The fields of a parsed symbol that the embedded operations read
(`parsers/base.ts` `Symbol`).  `signature` uses `""` for the absent value, as
the stored form does (`symbol.signature || ''`); `location`, `docstring`,
`parent`, `children`, `language` and `gitMetadata` are carried through the
store but never read by the operations under verification, so the parsed view
keeps only a placeholder location. -/
structure Sym where
  id : String
  name : String
  kind : String
  filepath : String
  signature : String
  exported : Bool
  location : Loc
deriving DecidableEq, Repr

/-- A dependency edge (`parsers/base.ts` `DependencyEdge`); `from`/`to` are
renamed `fromId`/`toId` because `from` is reserved. -/
structure Dep where
  fromId : String
  toId : String
  type : String
  location : Option Loc
deriving DecidableEq, Repr

/-- `Storage.k`: every key is namespaced `agimake:<project>:<key>`. -/
def k (proj key : String) : String := "agimake:" ++ proj ++ ":" ++ key

/-- String value of a hash field, `""` when absent or numeric (TS reads the
raw string record). -/
def hstr (fields : List (String × HVal)) (field : String) : String :=
  match alookup fields field with
  | some (HVal.str s) => s
  | _ => ""

/-- Parse a symbol hash into the fields the code reads, as `Storage.getSymbol`
does (`exported: data.exported === '1'`).  JSON sub-parses (location,
children, gitMetadata) are not read by any embedded operation. -/
def parseSym (fields : List (String × HVal)) : Sym :=
  { id := hstr fields "id"
    name := hstr fields "name"
    kind := hstr fields "kind"
    filepath := hstr fields "filepath"
    signature := hstr fields "signature"
    exported := hstr fields "exported" = "1"
    location := ⟨0, 0, 0, 0⟩ }

/-- `Storage.getSymbol`: `HGETALL symbol:<id>`, `null` when the hash is empty. -/
def getSymbol (proj : String) (st : Store) (id : String) : Option Sym :=
  let data := st.hgetall (k proj ("symbol:" ++ id))
  if data = [] then none else some (parseSym data)

/-- `Storage.getSymbolsByFile`: members of `idx:file:<path>`, each fetched and
parsed, empty hashes skipped. -/
def getSymbolsByFile (proj : String) (st : Store) (filepath : String) : List Sym :=
  (st.smembers (k proj ("idx:file:" ++ filepath))).filterMap (fun id =>
    let data := st.hgetall (k proj ("symbol:" ++ id))
    if data = [] then none else some (parseSym data))

/-- `Storage.getAllSymbols`: `SCAN` for `symbol:*` keys, strip the prefix,
drop empty ids (`filter(Boolean)`), fetch and parse each hash. -/
def getAllSymbols (proj : String) (st : Store) : List Sym :=
  let pre := k proj "symbol:"
  let ids := ((st.map (fun p => p.1)).filter (fun key => isPreOf pre.data key.data)).map
    (fun key => strDrop key pre.length)
  (ids.filter (fun id => id ≠ "")).filterMap (fun id =>
    let data := st.hgetall (pre ++ id)
    if data = [] then none else some (parseSym data))

/-- Read the `type` field of an edge hash: `(dataRecord?.type) || 'uses'`
(the empty string is falsy). -/
def depType (fields : List (String × HVal)) : String :=
  let t := hstr fields "type"
  if t = "" then "uses" else t

/-- `Storage.getDependenciesFrom`: members of `deps:from:<id>` plus the edge
hash `deps:from:<id>:to:<to>` for each.  The JSON `location` field is never
read by the operations under verification. -/
def getDependenciesFrom (proj : String) (st : Store) (id : String) : List Dep :=
  (st.smembers (k proj ("deps:from:" ++ id))).map (fun toId =>
    { fromId := id
      toId := toId
      type := depType (st.hgetall (k proj ("deps:from:" ++ id ++ ":to:" ++ toId)))
      location := none })

/-- `Storage.getDependenciesTo`: symmetric over `deps:to:<id>`. -/
def getDependenciesTo (proj : String) (st : Store) (id : String) : List Dep :=
  (st.smembers (k proj ("deps:to:" ++ id))).map (fun fromId =>
    { fromId := fromId
      toId := id
      type := depType (st.hgetall (k proj ("deps:from:" ++ fromId ++ ":to:" ++ id)))
      location := none })

/-- `Storage.getAllDependencies`: `SCAN` for `deps:from:*`, skip metadata keys
(those containing `:to:`) and empty set keys, read each member's edge hash. -/
def getAllDependencies (proj : String) (st : Store) : List Dep :=
  let pre := k proj "deps:from:"
  let keys := (st.map (fun p => p.1)).filter (fun key => isPreOf pre.data key.data)
  keys.foldl (fun acc key =>
    let fromId := strDrop key pre.length
    if fromId = "" ∨ hasSubstr key ":to:" then acc
    else
      acc ++ (st.smembers key).map (fun toId =>
        { fromId := fromId
          toId := toId
          type := depType (st.hgetall (k proj ("deps:from:" ++ fromId ++ ":to:" ++ toId)))
          location := none })) []

/-- The `CLEANUP_SYMBOL_SCRIPT` Lua script of `Storage`, line by line.
`baseKey` keeps everything up to and including `:deps:from:` (Lua
`string.sub(baseKey, 1, colonPos + 10)` where `colonPos` is the start of the
11-character match `:deps:from:`); the `string.gsub` calls use plain-text
patterns except the last, whose `:deps:from:.*` swallows the tail. -/
def cleanupSymbol (st : Store)
    (symbolKey fileIdxKey nameIdxKey kindIdxKey depsFromKey depsToKey : String)
    (symbolId : String) : Store :=
  let baseKey :=
    match splitFirst depsFromKey ":deps:from:" with
    | some (pre, _) => pre ++ ":deps:from:"
    | none => depsFromKey
  let st := st.del symbolKey
  let st := st.srem fileIdxKey symbolId
  let st := st.srem nameIdxKey symbolId
  let st := st.srem kindIdxKey symbolId
  let toIds := st.smembers depsFromKey
  let st := toIds.foldl (fun st toId =>
    let st := st.del (baseKey ++ ":to:" ++ toId)
    st.srem (replaceAll baseKey ":from:" ":to:" ++ toId) symbolId) st
  let fromIds := st.smembers depsToKey
  let st := fromIds.foldl (fun st fromId =>
    let st := st.del (replaceAll depsToKey ":to:" ":from:" ++ fromId ++ ":to:" ++ symbolId)
    st.srem (replaceAll depsToKey ":to:" ":from:" ++ fromId) symbolId) st
  let st := st.del depsFromKey
  let st := st.del depsToKey
  st.zrem
    (match splitFirst depsFromKey ":deps:from:" with
     | some (pre, _) => pre ++ ":pagerank"
     | none => depsFromKey) symbolId

/-- `Storage.removeSymbol`: fetch the symbol, return unchanged when it is
absent, otherwise run the cleanup script with the six keys the TS passes
(the script ignores the filepath/name/kind arguments beyond the keys). -/
def removeSymbol (proj : String) (st : Store) (id : String) : Store :=
  match getSymbol proj st id with
  | none => st
  | some sym =>
      cleanupSymbol st
        (k proj ("symbol:" ++ id))
        (k proj ("idx:file:" ++ sym.filepath))
        (k proj ("idx:name:" ++ sym.name))
        (k proj ("idx:kind:" ++ sym.kind))
        (k proj ("deps:from:" ++ id))
        (k proj ("deps:to:" ++ id))
        id

/-- One entry of the `setPageRanks` loop: `ZADD` the score into the `pagerank`
sorted set and mirror it into the symbol hash's `pageRank` field.  The TS
chunks the entries into batches of 1000 pipelined commands; the resulting
store state equals the sequential application. -/
def setPageRanksStep (proj : String) (st : Store) (entry : String × ℚ) : Store :=
  let st := st.zadd (k proj "pagerank") entry.2 entry.1
  st.hset (k proj ("symbol:" ++ entry.1)) [("pageRank", HVal.num entry.2)]

/-- `Storage.setPageRanks`: early return on an empty map; otherwise clear the
`pagerank` sorted set and apply `setPageRanksStep` entry by entry. -/
def setPageRanks (proj : String) (st : Store) (ranks : List (String × ℚ)) : Store :=
  if ranks = [] then st
  else ranks.foldl (setPageRanksStep proj) (st.del (k proj "pagerank"))

/-- JS `String.split` with a one-character separator (`"".split(sep)` is
`[""]`). -/
def splitOnChar (sep : Char) : List Char → List (List Char)
  | [] => [[]]
  | c :: rest =>
      let r := splitOnChar sep rest
      if c = sep then [] :: r
      else
        match r with
        | [] => [[c]]
        | h :: t => (c :: h) :: t

/-- The file's basename: `filepath.split('/').pop() || ''`. -/
def basenameOf (filepath : String) : String :=
  String.mk ((splitOnChar '/' filepath.data).getLastD [])

/-- The initial-rank multiplier of `DependencyResolver.computePageRank`
(lines 183–207): ×1.5 when exported; ×2 when the basename is one of the six
recognised entry-point names; ×1.3 for `class`/`interface`, ×1.15 for
`function`/`method`, ×1 otherwise. -/
def resolverMultiplier (sym : Sym) : ℚ :=
  let m1 : ℚ := if sym.exported then 3 / 2 else 1
  let filename := basenameOf sym.filepath
  let m2 :=
    if filename = "index.ts" ∨ filename = "main.ts" ∨ filename = "index.js" ∨
        filename = "main.js" ∨ filename = "index.py" ∨ filename = "main.py"
    then m1 * 2 else m1
  if sym.kind = "class" ∨ sym.kind = "interface" then m2 * (13 / 10)
  else if sym.kind = "function" ∨ sym.kind = "method" then m2 * (23 / 20)
  else m2

/-- The adjacency map of `computePageRank`: a `Map` keyed by each symbol's id
(reset to an empty set per symbol), then each edge whose two endpoints are
present adds `dep.to` to `graph.get(dep.from)` with set semantics.  (The
`inDegree` map the TS also builds is never read afterwards.) -/
def buildGraph (symbols : List Sym) (deps : List Dep) : List (String × List String) :=
  let g0 := symbols.foldl (fun g sym => aset g sym.id []) []
  deps.foldl (fun g dep =>
    match alookup g dep.fromId, alookup g dep.toId with
    | some outSet, some _ =>
        aset g dep.fromId (if dep.toId ∈ outSet then outSet else outSet ++ [dep.toId])
    | _, _ => g) g0

/-- The initial rank map: `rank.set(symbol.id, baseRank * multiplier)` with
`baseRank = 1/n`. -/
def initRanks (symbols : List Sym) (n : ℕ) : List (String × ℚ) :=
  symbols.foldl (fun r sym => aset r sym.id ((1 / (n : ℚ)) * resolverMultiplier sym)) []

/-- One symbol's incoming-rank sum: over every `[from, toSet]` entry of the
graph with `toSet.has(id)`, add `rank.get(from) / outDegree` (guarded by
`outDegree > 0`, `rank.get(from) || 0`). -/
def inSum (graph : List (String × List String)) (rank : List (String × ℚ))
    (id : String) : ℚ :=
  graph.foldl (fun sum entry =>
    if id ∈ entry.2 then
      let fromRank := (alookup rank entry.1).getD 0
      let outDegree := entry.2.length
      if outDegree > 0 then sum + fromRank / (outDegree : ℚ) else sum
    else sum) 0

/-- One PageRank iteration: `newRank.set(id, (1-d)/n + d * sum)` per symbol. -/
def iterStep (graph : List (String × List String)) (symbols : List Sym) (n : ℕ)
    (damping : ℚ) (rank : List (String × ℚ)) : List (String × ℚ) :=
  symbols.foldl (fun nr sym =>
    aset nr sym.id ((1 - damping) / (n : ℚ) + damping * inSum graph rank sym.id)) []

/-- The convergence test: every entry of the old map differs from the new one
by at most the tolerance. -/
def converged (rank newRank : List (String × ℚ)) (tol : ℚ) : Bool :=
  rank.all (fun p => decide (|p.2 - (alookup newRank p.1).getD 0| ≤ tol))

/-- The iteration loop: up to `iterations` rounds, each computing `newRank`,
checking convergence against the previous map, then replacing it (the TS
breaks after the replacement, so the result is always the latest `newRank`
when at least one round runs). -/
def iterLoop (graph : List (String × List String)) (symbols : List Sym) (n : ℕ)
    (damping tol : ℚ) : ℕ → List (String × ℚ) → List (String × ℚ)
  | 0, rank => rank
  | iters + 1, rank =>
      let newRank := iterStep graph symbols n damping rank
      if converged rank newRank tol then newRank
      else iterLoop graph symbols n damping tol iters newRank

/-- The final normalisation of `computePageRank`: divide every entry by the
total when it is positive (the TS rewrites each entry of the map in place,
which equals this map over the values). -/
def normalizeRanks (rank : List (String × ℚ)) : List (String × ℚ) :=
  let total := (rank.map (fun p => p.2)).sum
  if total > 0 then rank.map (fun p => (p.1, p.2 / total)) else rank

/-- `DependencyResolver.computePageRank` up to its final store write: damping
0.85, 30 iterations, tolerance 1e-6, followed by normalisation to sum 1. -/
def computePageRankRanks (proj : String) (st : Store) : List (String × ℚ) :=
  let symbols := getAllSymbols proj st
  let deps := getAllDependencies proj st
  let graph := buildGraph symbols deps
  let n := symbols.length
  let rank := initRanks symbols n
  normalizeRanks (iterLoop graph symbols n (17 / 20) (1 / 1000000) 30 rank)

/-- `DependencyResolver.computePageRank`, the entry the indexer invokes:
compute the ranks and persist them through `setPageRanks`. -/
def computePageRank (proj : String) (st : Store) : Store :=
  setPageRanks proj st (computePageRankRanks proj st)

/-! ### Scanner (`src/indexer/file-scanner.ts`) and the indexer's file tracking -/

/-- A candidate file as the glob+stat phase reports it. -/
structure FileEntry where
  path : String
  mtime : ℤ
  size : ℕ
deriving DecidableEq, Repr

/-- `FileInfo` as built by `FileScanner.scan` (`hash` is set only for changed
files in incremental mode). -/
structure FileInfo where
  path : String
  mtime : ℤ
  size : ℕ
  hash : Option String
deriving DecidableEq, Repr

/-- `ScanResult = {files, changed, deleted}`. -/
structure ScanResult where
  files : List FileInfo
  changed : List FileInfo
  deleted : List String
deriving DecidableEq, Repr

/-- A tracked file record `{mtime, hash}`. -/
structure Tracking where
  mtime : ℤ
  hash : String
deriving DecidableEq, Repr

/-- `FileScanner.scan`.  The filesystem is abstracted as the glob result
`entries`, the composed predicate `excluded` (which stands for
`micromatch.isMatch(relative(projectPath, path), config.indexer.exclude)`) and
the oracle `hashOf` (the scanner's `getFileHash`).  Per entry: skip when
excluded or above `maxFileSize`; otherwise record it in `files`, and — only
when `incremental && trackedFiles` — compute the hash and add it to `changed`
when untracked or with a different mtime.  Deleted files are the tracked paths
no longer present, again only in incremental mode.  `scanStep` is the body of
the per-entry loop. -/
def scanStep (excluded : String → Bool) (maxFileSize : ℕ) (hashOf : String → String)
    (incremental : Bool) (trackedFiles : Option (List (String × Tracking)))
    (acc : List FileInfo × List FileInfo) (entry : FileEntry) :
    List FileInfo × List FileInfo :=
  if excluded entry.path then acc
  else if entry.size > maxFileSize then acc
  else
    match incremental, trackedFiles with
    | true, some tracked =>
        let changedHere :=
          match alookup tracked entry.path with
          | none => true
          | some t => t.mtime ≠ entry.mtime
        if changedHere then
          let info : FileInfo :=
            { path := entry.path, mtime := entry.mtime, size := entry.size
              hash := some (hashOf entry.path) }
          (acc.1 ++ [info], acc.2 ++ [info])
        else
          (acc.1 ++ [{ path := entry.path, mtime := entry.mtime, size := entry.size
                       hash := none }], acc.2)
    | _, _ =>
        (acc.1 ++ [{ path := entry.path, mtime := entry.mtime, size := entry.size
                     hash := none }], acc.2)

/-- The loop of `FileScanner.scan` over the glob result. -/
def scanFold (entries : List FileEntry) (excluded : String → Bool) (maxFileSize : ℕ)
    (hashOf : String → String) (incremental : Bool)
    (trackedFiles : Option (List (String × Tracking))) :
    List FileInfo × List FileInfo :=
  entries.foldl (scanStep excluded maxFileSize hashOf incremental trackedFiles) ([], [])

def scan (entries : List FileEntry) (excluded : String → Bool) (maxFileSize : ℕ)
    (hashOf : String → String) (incremental : Bool)
    (trackedFiles : Option (List (String × Tracking))) : ScanResult :=
  let step := scanFold entries excluded maxFileSize hashOf incremental trackedFiles
  let deleted :=
    match incremental, trackedFiles with
    | true, some tracked =>
        (tracked.map (fun p => p.1)).filter (fun path =>
          ¬ (step.1.map (fun f => f.path)).contains path)
    | _, _ => []
  { files := step.1, changed := step.2, deleted := deleted }

/-- The full-scan branch of `Indexer.indexProject` (lines 93–98): scan without
a tracked map, then rebuild the result with `files` stripped of hashes,
`changed := fullScan.files` and no deletions. -/
def fullScanResult (entries : List FileEntry) (excluded : String → Bool)
    (maxFileSize : ℕ) (hashOf : String → String) : ScanResult :=
  let fullScan := scan entries excluded maxFileSize hashOf false none
  { files := fullScan.files.map (fun f => { f with hash := none })
    changed := fullScan.files
    deleted := [] }

/-- `Storage.setFileTracking`: write `{mtime, hash}` into the `file:<path>`
hash (`mtime` is stored via `toString`). -/
def setFileTracking (proj : String) (st : Store) (filepath : String)
    (tracking : Tracking) : Store :=
  st.hset (k proj ("file:" ++ filepath))
    [("mtime", HVal.str (toString tracking.mtime)), ("hash", HVal.str tracking.hash)]

/-- `Storage.getFileTracking`: `null` when the hash is empty. -/
def getFileTracking (proj : String) (st : Store) (filepath : String) :
    Option Tracking :=
  let data := st.hgetall (k proj ("file:" ++ filepath))
  if data = [] then none
  else some { mtime := ((hstr data "mtime").toInt?).getD 0, hash := hstr data "hash" }

/-- `Indexer.updateFileTracking`: only files whose `hash` is truthy (present
and non-empty) get a tracking record. -/
def updateFileTracking (proj : String) (st : Store) (files : List FileInfo) : Store :=
  (files.filter (fun f =>
      match f.hash with
      | some h => h ≠ ""
      | none => false)).foldl
    (fun st f => setFileTracking proj st f.path { mtime := f.mtime, hash := (f.hash).getD "" })
    st

/-- `Indexer.getTrackedFiles`: the tracking records of every distinct filepath
occurring among the stored symbols. -/
def getTrackedFiles (proj : String) (st : Store) : List (String × Tracking) :=
  let filePaths := ((getAllSymbols proj st).map (fun s => s.filepath)).dedup
  filePaths.foldl (fun acc path =>
    match getFileTracking proj st path with
    | some t => acc ++ [(path, t)]
    | none => acc) []

/-- The file-tracking slice of `Indexer.indexProject`: derive the tracked map,
pick incremental mode (`options.incremental && !options.force && tracked
nonempty`), scan accordingly, remove the tracking records of deleted files
(`handleDeletedFiles`; the symbol removals it also performs never touch
`file:<path>` keys), select `filesToProcess` (all files under `force`, else
the changed ones) and run `updateFileTracking` on them.  The extraction,
symbol/edge storage, git-metadata and PageRank phases in between write no
`file:<path>` key, so this is the complete effect of a run on tracking
records. -/
def indexProjectFileTracking (proj : String) (st : Store) (entries : List FileEntry)
    (excluded : String → Bool) (maxFileSize : ℕ) (hashOf : String → String)
    (force incremental : Bool) : Store :=
  let trackedFiles := getTrackedFiles proj st
  let isIncremental := incremental ∧ ¬ force ∧ trackedFiles ≠ []
  let scanResult :=
    if isIncremental then scan entries excluded maxFileSize hashOf true (some trackedFiles)
    else fullScanResult entries excluded maxFileSize hashOf
  let st := scanResult.deleted.foldl (fun st path => st.del (k proj ("file:" ++ path))) st
  let filesToProcess := if force then scanResult.files else scanResult.changed
  updateFileTracking proj st filesToProcess

/-! ### Resolver: intra-file symbolic edges
(`DependencyResolver.resolveImportDependencies` / `findSymbolsByName`) -/

/-- JS `\s` on the whitespace the signatures contain. -/
def wsChar (c : Char) : Bool := c = ' ' ∨ c = '\t' ∨ c = '\n' ∨ c = '\r'

/-- JS `\w` = `[A-Za-z0-9_]`. -/
def wordChar (c : Char) : Bool := c.isAlpha ∨ c.isDigit ∨ c = '_'

/-- Try to match `/extends\s+(\w+)/` at the head of the text: the literal,
then at least one whitespace, then the maximal nonempty word run (the capture). -/
def matchExtendsAt (l : List Char) : Option (List Char) :=
  if isPreOf "extends".data l then
    let rest := l.drop 7
    let ws := rest.takeWhile wsChar
    if ws = [] then none
    else
      let w := (rest.drop ws.length).takeWhile wordChar
      if w = [] then none else some w
  else none

/-- Scan for the first position where `/extends\s+(\w+)/` matches and return
the captured name. -/
def findExtendsName : List Char → Option (List Char)
  | [] => none
  | c :: rest =>
      match matchExtendsAt (c :: rest) with
      | some w => some w
      | none => findExtendsName rest

/-- The capture of `signature.match(/extends\s+(\w+)/)`. -/
def extendsTarget (sig : String) : Option String :=
  (findExtendsName sig.data).map String.mk

/-- Character class of the `implements` capture group `[\w,\s]`. -/
def implChar (c : Char) : Bool := wordChar c ∨ c = ',' ∨ wsChar c

/-- Try to match `/implements\s+([\w,\s]+)/` at the head of the text.  The
greedy `\s+` takes the maximal whitespace run; when nothing of the capture
class follows it, the engine backtracks one whitespace character into the
capture (whitespace belongs to `[\w,\s]`), which needs at least two of them. -/
def matchImplementsAt (l : List Char) : Option (List Char) :=
  if isPreOf "implements".data l then
    let rest := l.drop 10
    let ws := rest.takeWhile wsChar
    if ws = [] then none
    else
      let cap := (rest.drop ws.length).takeWhile implChar
      if cap = [] then
        if ws.length ≥ 2 then some (ws.drop (ws.length - 1)) else none
      else some cap
  else none

/-- Scan for the first `/implements\s+([\w,\s]+)/` match and return the capture. -/
def findImplementsCap : List Char → Option (List Char)
  | [] => none
  | c :: rest =>
      match matchImplementsAt (c :: rest) with
      | some cap => some cap
      | none => findImplementsCap rest

/-- JS `String.trim` on the whitespace model. -/
def trimStr (s : String) : String :=
  String.mk (((s.data.dropWhile wsChar).reverse.dropWhile wsChar).reverse)

/-- The interface names of `signature.match(/implements\s+([\w,\s]+)/)`:
capture split on `,`, each piece trimmed. -/
def implementsTargets (sig : String) : Option (List String) :=
  (findImplementsCap sig.data).map (fun cap =>
    (splitOnChar ',' cap).map (fun piece => trimStr (String.mk piece)))

/-- `DependencyResolver.findSymbolsByName`: every symbol of that name in
every file of the map, in map order. -/
def findSymbolsByName (name : String) (symbolsByFile : List (String × List Sym)) :
    List Sym :=
  symbolsByFile.foldl (fun results entry =>
    results ++ entry.2.filter (fun s => s.name = name)) []

/-- `DependencyResolver.resolveImportDependencies`: nothing for a falsy
signature; otherwise an `extends` edge to every symbol (in any file) named
like the `extends` capture, then `implements` edges for each comma-separated
name of the `implements` capture. -/
def resolveImportDependencies (symbol : Sym)
    (symbolsByFile : List (String × List Sym)) : List Dep :=
  if symbol.signature = "" then []
  else
    let extDeps :=
      match extendsTarget symbol.signature with
      | some parentName =>
          (findSymbolsByName parentName symbolsByFile).map (fun parent =>
            { fromId := symbol.id, toId := parent.id, type := "extends"
              location := some symbol.location })
      | none => []
    let implDeps :=
      match implementsTargets symbol.signature with
      | some names =>
          names.foldl (fun acc ifaceName =>
            acc ++ (findSymbolsByName ifaceName symbolsByFile).map (fun iface =>
              { fromId := symbol.id, toId := iface.id, type := "implements"
                location := some symbol.location })) []
      | none => []
    extDeps ++ implDeps

/-! ### Graph traversal (`src/graph/traversal.ts`): impact analysis and
Kahn's topological sort -/

/-- A pointwise function update (models one `Map.set` on the in-degree map,
whose keys are fixed to the node set up front). -/
def updFn (d : String → ℤ) (v : String) (x : ℤ) : String → ℤ :=
  fun w => if w = v then x else d w

/-- The in-degree map of `topologicalSort`: initialised to 0 for every node,
then `+1` on `dep.to` for every edge kept by the `nodeIds.includes` filter. -/
def buildDeg (adj : String → List String) (nodeIds : List String) : String → ℤ :=
  nodeIds.foldl (fun deg u =>
    (adj u).foldl (fun d v => updFn d v (d v + 1)) deg) (fun _ => 0)

/-- The body of one Kahn iteration: decrement the in-degree of each neighbour
of the popped node in adjacency order and collect, in that order, those whose
degree reaches exactly 0. -/
def kahnStep (adj : String → List String) (q0 : String) (deg : String → ℤ) :
    (String → ℤ) × List String :=
  (adj q0).foldl (fun p n =>
    let nd := p.1 n - 1
    (updFn p.1 n nd, if nd = 0 then p.2 ++ [n] else p.2)) (deg, [])

/-- The Kahn `while` loop: pop the queue head into the result, push the
neighbours whose degree reached 0.  The loop pops one node per round, and (for
the duplicate-free stores it runs on) every node enters the queue at most
once, so `nodeIds.length + 1` fuel is never exhausted. -/
def kahnLoop (adj : String → List String) :
    ℕ → List String → (String → ℤ) → List String → List String
  | 0, _, _, res => res
  | _ + 1, [], _, res => res
  | fuel + 1, q0 :: rest, deg, res =>
      let step := kahnStep adj q0 deg
      kahnLoop adj fuel (rest ++ step.2) step.1 (res ++ [q0])

/-- `GraphTraversal.topologicalSort` over the stored graph restricted to
`nodeIds`: adjacency from `deps:from` filtered to the node set, Kahn's
algorithm seeded with the zero-in-degree nodes in `nodeIds` order (JS `Map`
iteration order), and the surviving ids converted to symbols (missing records
skipped). -/
def topologicalSort (proj : String) (st : Store) (nodeIds : List String) :
    List Sym :=
  let adj := fun id =>
    ((getDependenciesFrom proj st id).map (fun d => d.toId)).filter
      (fun t => t ∈ nodeIds)
  let deg0 := buildDeg adj nodeIds
  let queue0 := nodeIds.filter (fun id => deg0 id = 0)
  let result := kahnLoop adj (nodeIds.length + 1) queue0 deg0 []
  result.filterMap (fun id => getSymbol proj st id)

/-- The reverse-BFS of `analyzeImpact` that collects `allAffected`: pop a node,
fetch its dependents from `deps:to`, and append each unseen `dep.from` to both
the visit queue and the affected list.  (The per-node impact paths the TS also
tracks feed only the risk report, not the membership or the ordering.) -/
def affectedClosure (proj : String) (st : Store) :
    ℕ → List String → List String → List String
  | 0, _, acc => acc
  | _ + 1, [], acc => acc
  | fuel + 1, current :: rest, acc =>
      let dependents := getDependenciesTo proj st current
      let step := dependents.foldl (fun (p : List String × List String) dep =>
        if dep.fromId ∈ p.1 then p
        else (p.1 ++ [dep.fromId], p.2 ++ [dep.fromId])) (acc, [])
      affectedClosure proj st fuel (rest ++ step.2) step.1

/-- Fuel for the reverse BFS: every queued node is either an input or a member
of some stored set, so the store size plus the input length bounds the queue
traffic. -/
def storeFuel (st : Store) (symbolIds : List String) : ℕ :=
  st.foldl (fun n p =>
    match p.2 with
    | RVal.set members => n + members.length
    | _ => n) (symbolIds.length + 1)

/-- The `allAffected` set of `GraphTraversal.analyzeImpact`, in insertion
order: seeded with `new Set(symbolIds)` and grown by the reverse BFS. -/
def impactAllAffected (proj : String) (st : Store) (symbolIds : List String) :
    List String :=
  affectedClosure proj st (storeFuel st symbolIds) symbolIds symbolIds.dedup

/-- The `suggestedOrder` component of `analyzeImpact`: Kahn's topological sort
of the affected set. -/
def analyzeImpactSuggestedOrder (proj : String) (st : Store)
    (symbolIds : List String) : List Sym :=
  topologicalSort proj st (impactAllAffected proj st symbolIds)

/-- The symbol-collection phase of the `get_impact` tool handler: all symbol
ids of the requested files, in file order. -/
def getImpactSymbolIds (proj : String) (st : Store) (files : List String) :
    List String :=
  files.foldl (fun acc file =>
    acc ++ (getSymbolsByFile proj st file).map (fun s => s.id)) []

/-- The `suggested_order` a `get_impact` call reports (before the optional
stability filter, which defaults to the identity): the handler feeds the
collected ids into `analyzeImpact`. -/
def getImpactSuggestedOrder (proj : String) (st : Store) (files : List String) :
    List Sym :=
  analyzeImpactSuggestedOrder proj st (getImpactSymbolIds proj st files)

/-! ### Well-formedness of stores, claim-side comparison definitions, and
concrete stores used by the concrete theorems -/

/-- A stored edge `u → v`: `v` is a member of `deps:from:<u>`. -/
def storedEdge (proj : String) (st : Store) (u v : String) : Prop :=
  v ∈ st.smembers (k proj ("deps:from:" ++ u))

/-- Redis sets hold distinct members; `SADD`/`SREM` preserve this. -/
def rvalSetNodupB : RVal → Bool
  | RVal.set l => decide l.Nodup
  | _ => true

/-- Every set value of the store is duplicate-free. -/
def SetsWF (st : Store) : Prop := ∀ p ∈ st, rvalSetNodupB p.2 = true

/-- Well-formedness of one keyspace entry with respect to symbol records: a
key of the form `symbol:<id>` holds a hash whose `id` field is `<id>`, with
`<id>` nonempty — which is what `addSymbols` writes. -/
def symEntryWFB (proj : String) (p : String × RVal) : Bool :=
  let pre := k proj "symbol:"
  if isPreOf pre.data p.1.data then
    match p.2 with
    | RVal.hash fields =>
        decide (hstr fields "id" = strDrop p.1 pre.length) &&
        decide (strDrop p.1 pre.length ≠ "")
    | _ => false
  else true

/-- Every `symbol:*` key of the store is a well-formed symbol record. -/
def SymsWF (proj : String) (st : Store) : Prop := ∀ p ∈ st, symEntryWFB proj p = true

/-- The entry-point test as C4 states it (spec §4.6): basename in
`index/main.{ts,js,py}` or a path containing `/bin/` or `/src/main/`.  This
definition follows the claim's words, for comparison against
`resolverMultiplier`, which is translated from the source. -/
def claimEntryPointB (filepath : String) : Bool :=
  let filename := basenameOf filepath
  filename == "index.ts" || filename == "main.ts" || filename == "index.js" ||
  filename == "main.js" || filename == "index.py" || filename == "main.py" ||
  hasSubstr filepath "/bin/" || hasSubstr filepath "/src/main/"

/-- The initial-rank multiplier as C4 states it: ×1.5 exported, ×2 entry
point, ×1.2 class/interface else ×1.1 function/method else ×1.  Follows the
claim's words, for comparison with `resolverMultiplier`. -/
def claimMultiplier (sym : Sym) : ℚ :=
  (if sym.exported then 3 / 2 else 1) *
  (if claimEntryPointB sym.filepath then 2 else 1) *
  (if sym.kind = "class" ∨ sym.kind = "interface" then 6 / 5
   else if sym.kind = "function" ∨ sym.kind = "method" then 11 / 10 else 1)

/-- A symbol hash as `addSymbols` writes it (the fields read back by the
embedded operations). -/
def symHash (id name kind filepath signature : String) (exported : Bool) : RVal :=
  RVal.hash [("id", HVal.str id), ("name", HVal.str name), ("kind", HVal.str kind),
    ("filepath", HVal.str filepath), ("signature", HVal.str signature),
    ("exported", HVal.str (if exported then "1" else "0"))]

/-- Store for the C1 failing input: symbols `A` and `B` in `f.ts` with one
edge `A → B`, fully indexed, with PageRank entries. -/
def c1Store : Store :=
  [ (k "p" "symbol:f.ts:A:1", symHash "f.ts:A:1" "A" "class" "f.ts" "" true),
    (k "p" "symbol:f.ts:B:2", symHash "f.ts:B:2" "B" "class" "f.ts" "" true),
    (k "p" "idx:file:f.ts", RVal.set ["f.ts:A:1", "f.ts:B:2"]),
    (k "p" "idx:name:A", RVal.set ["f.ts:A:1"]),
    (k "p" "idx:name:B", RVal.set ["f.ts:B:2"]),
    (k "p" "idx:kind:class", RVal.set ["f.ts:A:1", "f.ts:B:2"]),
    (k "p" "deps:from:f.ts:A:1", RVal.set ["f.ts:B:2"]),
    (k "p" "deps:to:f.ts:B:2", RVal.set ["f.ts:A:1"]),
    (k "p" "deps:from:f.ts:A:1:to:f.ts:B:2", RVal.hash [("type", HVal.str "extends")]),
    (k "p" "pagerank", RVal.zset [("f.ts:A:1", 1 / 2), ("f.ts:B:2", 1 / 2)]) ]

/-- Store for the C7 scenario: a chain `X → Y → Z`, all three symbols declared
in the single TypeScript file `/p/f.ts`. -/
def c7Store : Store :=
  [ (k "p" "symbol:/p/f.ts:X:1", symHash "/p/f.ts:X:1" "X" "class" "/p/f.ts" "" true),
    (k "p" "symbol:/p/f.ts:Y:2", symHash "/p/f.ts:Y:2" "Y" "class" "/p/f.ts" "" true),
    (k "p" "symbol:/p/f.ts:Z:3", symHash "/p/f.ts:Z:3" "Z" "class" "/p/f.ts" "" true),
    (k "p" "idx:file:/p/f.ts", RVal.set ["/p/f.ts:X:1", "/p/f.ts:Y:2", "/p/f.ts:Z:3"]),
    (k "p" "deps:from:/p/f.ts:X:1", RVal.set ["/p/f.ts:Y:2"]),
    (k "p" "deps:to:/p/f.ts:Y:2", RVal.set ["/p/f.ts:X:1"]),
    (k "p" "deps:from:/p/f.ts:X:1:to:/p/f.ts:Y:2", RVal.hash [("type", HVal.str "uses")]),
    (k "p" "deps:from:/p/f.ts:Y:2", RVal.set ["/p/f.ts:Z:3"]),
    (k "p" "deps:to:/p/f.ts:Z:3", RVal.set ["/p/f.ts:Y:2"]),
    (k "p" "deps:from:/p/f.ts:Y:2:to:/p/f.ts:Z:3", RVal.hash [("type", HVal.str "uses")]) ]

/-- A one-symbol store used to witness the PageRank persistence theorem. -/
def c2Store : Store :=
  [ (k "p" "symbol:s.ts:S:1", symHash "s.ts:S:1" "S" "class" "s.ts" "" true) ]

/-- C4 counterexample symbol: an unexported class in a non-entry-point file. -/
def c4Sym : Sym :=
  { id := "/p/a.ts:C:1", name := "C", kind := "class", filepath := "/p/a.ts"
    signature := "", exported := false, location := ⟨1, 0, 1, 1⟩ }

/-- C8 referring symbol: `class B extends A` declared in `b.ts`. -/
def c8B : Sym :=
  { id := "b.ts:B:1", name := "B", kind := "class", filepath := "b.ts"
    signature := "class B extends A", exported := true, location := ⟨1, 0, 1, 10⟩ }

/-- C8 target symbol: `class A` declared in the other file `a.ts`. -/
def c8A : Sym :=
  { id := "a.ts:A:1", name := "A", kind := "class", filepath := "a.ts"
    signature := "class A", exported := true, location := ⟨1, 0, 1, 7⟩ }

/-- C8 symbols-by-file map: `B` in `b.ts`, `A` in `a.ts`. -/
def c8Map : List (String × List Sym) := [("b.ts", [c8B]), ("a.ts", [c8A])]

/-- The invariant all PageRank loop outputs satisfy: positive values,
duplicate-free keys, one entry per stored symbol. -/
def RankOK (symbols : List Sym) (rank : List (String × ℚ)) : Prop :=
  (∀ p ∈ rank, 0 < p.2) ∧ ((rank.map Prod.fst).Nodup) ∧
    (∀ s ∈ symbols, (alookup rank s.id).isSome)

/-- The number of edges into `v` (within `nodeIds`) whose source has not yet
been emitted: the value Kahn's in-degree counter maintains. -/
def remInDeg (adj : String → List String) (nodeIds res : List String)
    (v : String) : ℤ :=
  (nodeIds.countP (fun u => decide (v ∈ adj u) && !(decide (u ∈ res))) : ℤ)

/-- No dependency edge from a later element to an earlier one: `y` (later)
has no edge `y → x` (earlier) within the node set. -/
def noBack (adj : String → List String) (nodeIds : List String)
    (x y : String) : Prop :=
  ¬ (y ∈ nodeIds ∧ x ∈ adj y)

/-- What Kahn's loop guarantees of its emitted list. -/
structure KahnOut (adj : String → List String) (nodeIds : List String)
    (l : List String) : Prop where
  pairwise : List.Pairwise (noBack adj nodeIds) l
  noself : ∀ x ∈ l, ¬ (x ∈ nodeIds ∧ x ∈ adj x)
  sub : ∀ x ∈ l, x ∈ nodeIds

/-- The loop invariant of Kahn's algorithm as `topologicalSort` implements
it. -/
structure KahnInv (adj : String → List String) (nodeIds : List String)
    (deg : String → ℤ) (queue res : List String) : Prop where
  queue_closed : ∀ v ∈ queue, ∀ u ∈ nodeIds, v ∈ adj u → u ∈ res
  res_closed : ∀ v ∈ res, ∀ u ∈ nodeIds, v ∈ adj u → u ∈ res
  res_pairwise : List.Pairwise (noBack adj nodeIds) res
  res_noself : ∀ v ∈ res, ¬ (v ∈ nodeIds ∧ v ∈ adj v)
  deg_eq : ∀ v, deg v = remInDeg adj nodeIds res v
  nodup : (res ++ queue).Nodup
  queue_sub : ∀ x ∈ queue, x ∈ nodeIds
  res_sub : ∀ x ∈ res, x ∈ nodeIds

/-! ### Association-list lemmas -/

theorem alookup_aset_self {β : Type} (l : List (String × β)) (key : String) (v : β) :
    alookup (aset l key v) key = some v := by
  induction l with
  | nil => simp [aset, alookup]
  | cons p rest ih =>
      obtain ⟨k', v'⟩ := p
      by_cases h : k' = key
      · simp [aset, h, alookup]
      · simp [aset, h, alookup, ih]

theorem alookup_aset_ne {β : Type} (l : List (String × β)) {key key' : String} (v : β)
    (h : key' ≠ key) : alookup (aset l key v) key' = alookup l key' := by
  induction l with
  | nil => simp [aset, alookup, Ne.symm h]
  | cons p rest ih =>
      obtain ⟨k', v'⟩ := p
      by_cases hk : k' = key
      · subst hk
        simp [aset, alookup, Ne.symm h]
      · simp only [aset, if_neg hk]
        by_cases hk' : k' = key'
        · simp [alookup, hk']
        · simp [alookup, hk', ih]

theorem alookup_mem {β : Type} {l : List (String × β)} {key : String} {v : β}
    (h : alookup l key = some v) : (key, v) ∈ l := by
  induction l with
  | nil => simp [alookup] at h
  | cons p rest ih =>
      obtain ⟨k', v'⟩ := p
      by_cases hk : k' = key
      · subst hk
        simp [alookup] at h
        subst h
        exact List.mem_cons_self _ _
      · simp only [alookup, if_neg hk] at h
        exact List.mem_cons_of_mem _ (ih h)

theorem mem_aset {β : Type} {l : List (String × β)} {key : String} {v : β}
    {p : String × β} (h : p ∈ aset l key v) : p = (key, v) ∨ p ∈ l := by
  induction l with
  | nil => simpa [aset] using h
  | cons q rest ih =>
      obtain ⟨k', v'⟩ := q
      by_cases hk : k' = key
      · simp only [aset, if_pos hk] at h
        rcases List.mem_cons.mp h with h1 | h1
        · exact Or.inl h1
        · exact Or.inr (List.mem_cons_of_mem _ h1)
      · simp only [aset, if_neg hk] at h
        rcases List.mem_cons.mp h with h1 | h1
        · exact Or.inr (h1 ▸ List.mem_cons_self _ _)
        · rcases ih h1 with h2 | h2
          · exact Or.inl h2
          · exact Or.inr (List.mem_cons_of_mem _ h2)

theorem aset_keys {β : Type} (l : List (String × β)) (key : String) (v : β) :
    (aset l key v).map Prod.fst =
      if key ∈ l.map Prod.fst then l.map Prod.fst else l.map Prod.fst ++ [key] := by
  induction l with
  | nil => simp [aset]
  | cons p rest ih =>
      obtain ⟨k', v'⟩ := p
      by_cases hk : k' = key
      · simp [aset, hk]
      · simp only [aset, if_neg hk, List.map_cons]
        by_cases hm : key ∈ rest.map Prod.fst
        · simp [hm, ih, Ne.symm hk]
        · simp [hm, ih, Ne.symm hk]

theorem aset_keys_nodup {β : Type} {l : List (String × β)} (key : String) (v : β)
    (h : (l.map Prod.fst).Nodup) : ((aset l key v).map Prod.fst).Nodup := by
  rw [aset_keys]
  by_cases hm : key ∈ l.map Prod.fst
  · simpa [hm] using h
  · simp only [if_neg hm]
    simp [List.nodup_append, h, hm]

theorem alookup_isSome_aset_mono {β : Type} {l : List (String × β)} {key' : String}
    (key : String) (v : β) (h : (alookup l key').isSome) :
    (alookup (aset l key v) key').isSome := by
  by_cases hk : key' = key
  · subst hk
    simp [alookup_aset_self]
  · rwa [alookup_aset_ne _ _ hk]

theorem alookup_adel_self {β : Type} (l : List (String × β)) (key : String) :
    alookup (adel l key) key = none := by
  induction l with
  | nil => simp [adel, alookup]
  | cons p rest ih =>
      obtain ⟨k', v'⟩ := p
      by_cases hk : k' = key
      · simp [adel, hk, ih]
      · simp [adel, hk, alookup, ih]

theorem alookup_adel_ne {β : Type} (l : List (String × β)) {key key' : String}
    (h : key' ≠ key) : alookup (adel l key) key' = alookup l key' := by
  induction l with
  | nil => simp [adel]
  | cons p rest ih =>
      obtain ⟨k', v'⟩ := p
      by_cases hk : k' = key
      · subst hk
        simp [adel, alookup, Ne.symm h, ih]
      · by_cases hk' : k' = key'
        · subst hk'
          simp [adel, hk, alookup]
        · simp [adel, hk, alookup, hk', ih]

/-! ### Fold-of-`aset` lemmas (the shape of the rank maps, where the written
value does not depend on the accumulator) -/

theorem foldl_aset_mem {α β : Type} (key : α → String) (f : α → β) (l : List α)
    (r0 : List (String × β)) {p : String × β}
    (h : p ∈ l.foldl (fun r x => aset r (key x) (f x)) r0) :
    p ∈ r0 ∨ ∃ x ∈ l, p = (key x, f x) := by
  induction l generalizing r0 with
  | nil => simpa using h
  | cons a rest ih =>
      simp only [List.foldl_cons] at h
      rcases ih _ h with h1 | ⟨x, hx, rfl⟩
      · rcases mem_aset h1 with h2 | h2
        · exact Or.inr ⟨a, List.mem_cons_self _ _, h2⟩
        · exact Or.inl h2
      · exact Or.inr ⟨x, List.mem_cons_of_mem _ hx, rfl⟩

theorem foldl_aset_keys_nodup {α β : Type} (key : α → String) (f : α → β)
    (l : List α) (r0 : List (String × β)) (h : (r0.map Prod.fst).Nodup) :
    ((l.foldl (fun r x => aset r (key x) (f x)) r0).map Prod.fst).Nodup := by
  induction l generalizing r0 with
  | nil => simpa using h
  | cons a rest ih => exact ih _ (aset_keys_nodup _ _ h)

theorem foldl_aset_isSome_mono {α β : Type} (key : α → String) (f : α → β)
    (l : List α) (r0 : List (String × β)) {s : String}
    (h : (alookup r0 s).isSome) :
    (alookup (l.foldl (fun r x => aset r (key x) (f x)) r0) s).isSome := by
  induction l generalizing r0 with
  | nil => simpa using h
  | cons a rest ih => exact ih _ (alookup_isSome_aset_mono _ _ h)

theorem foldl_aset_isSome {α β : Type} (key : α → String) (f : α → β)
    (l : List α) (r0 : List (String × β)) {x : α} (hx : x ∈ l) :
    (alookup (l.foldl (fun r x => aset r (key x) (f x)) r0) (key x)).isSome := by
  induction l generalizing r0 with
  | nil => simp at hx
  | cons a rest ih =>
      rcases List.mem_cons.mp hx with rfl | hx'
      · exact foldl_aset_isSome_mono key f rest _
          (by simp [alookup_aset_self])
      · exact ih _ hx'

theorem foldl_aset_not_mem {α β : Type} (key : α → String) (f : α → β)
    (l : List α) (r0 : List (String × β)) {s : String} (hs : s ∉ l.map key) :
    alookup (l.foldl (fun r x => aset r (key x) (f x)) r0) s = alookup r0 s := by
  induction l generalizing r0 with
  | nil => simp
  | cons a rest ih =>
      simp only [List.map_cons, List.mem_cons] at hs
      push_neg at hs
      simp only [List.foldl_cons]
      rw [ih _ hs.2, alookup_aset_ne _ _ hs.1]

theorem foldl_aset_lookup {α β : Type} (key : α → String) (f : α → β)
    (l : List α) {x : α} (hnd : (l.map key).Nodup) (hx : x ∈ l) :
    ∀ r0, alookup (l.foldl (fun r y => aset r (key y) (f y)) r0) (key x) = some (f x) := by
  induction l with
  | nil => simp at hx
  | cons a rest ih =>
      intro r0
      simp only [List.map_cons, List.nodup_cons] at hnd
      rcases List.mem_cons.mp hx with rfl | hx'
      · simp only [List.foldl_cons]
        rw [foldl_aset_not_mem key f rest _ hnd.1, alookup_aset_self]
      · exact ih hnd.2 hx' _

theorem foldl_aset_ne_nil {α β : Type} (key : α → String) (f : α → β)
    (l : List α) (r0 : List (String × β)) {x : α} (hx : x ∈ l) :
    l.foldl (fun r y => aset r (key y) (f y)) r0 ≠ [] := by
  intro h
  have := foldl_aset_isSome key f l r0 hx
  rw [h] at this
  simp [alookup] at this

/-! ### Store and key lemmas -/

theorem str_data_inj {a b : String} (h : a.data = b.data) : a = b := by
  cases a; cases b; cases h; rfl

theorem str_append_inj {s a b : String} (h : s ++ a = s ++ b) : a = b := by
  have h2 : s.data ++ a.data = s.data ++ b.data := by
    simpa [String.data_append] using congrArg String.data h
  exact str_data_inj (List.append_cancel_left h2)

theorem k_inj {proj a b : String} (h : k proj a = k proj b) : a = b :=
  str_append_inj h

theorem k_ne {proj a b : String} (h : a ≠ b) : k proj a ≠ k proj b :=
  fun hk => h (k_inj hk)

theorem symbol_key_ne_pagerank (id : String) : "symbol:" ++ id ≠ "pagerank" := by
  intro h
  have hd := congrArg String.data h
  rw [String.data_append] at hd
  have e1 : "symbol:".data = ['s', 'y', 'm', 'b', 'o', 'l', ':'] := rfl
  have e2 : "pagerank".data = ['p', 'a', 'g', 'e', 'r', 'a', 'n', 'k'] := rfl
  rw [e1, e2] at hd
  simp only [List.cons_append] at hd
  exact absurd (List.head_eq_of_cons_eq hd) (by decide)

theorem symbol_key_inj {id1 id2 : String} (h : "symbol:" ++ id1 = "symbol:" ++ id2) :
    id1 = id2 := str_append_inj h

theorem get_setKey_self (st : Store) (key : String) (v : RVal) :
    (st.setKey key v).get key = some v := alookup_aset_self st key v

theorem get_setKey_ne (st : Store) {key key' : String} (v : RVal) (h : key' ≠ key) :
    (st.setKey key v).get key' = st.get key' := alookup_aset_ne st v h

theorem get_del_self (st : Store) (key : String) : (st.del key).get key = none :=
  alookup_adel_self st key

theorem get_del_ne (st : Store) {key key' : String} (h : key' ≠ key) :
    (st.del key).get key' = st.get key' := alookup_adel_ne st h

theorem zmembers_setKey_ne (st : Store) {key key' : String} (v : RVal) (h : key' ≠ key) :
    (st.setKey key v).zmembers key' = st.zmembers key' := by
  unfold Store.zmembers
  rw [get_setKey_ne st v h]

theorem zmembers_zadd_self (st : Store) (key : String) (score : ℚ) (member : String) :
    (st.zadd key score member).zmembers key = aset (st.zmembers key) member score := by
  show (st.setKey key (RVal.zset (aset (st.zmembers key) member score))).zmembers key = _
  unfold Store.zmembers
  rw [get_setKey_self]

theorem zmembers_hset_ne (st : Store) {key key' : String}
    (pairs : List (String × HVal)) (h : key' ≠ key) :
    (st.hset key pairs).zmembers key' = st.zmembers key' := by
  unfold Store.hset
  exact zmembers_setKey_ne _ _ h

theorem hgetall_setKey_ne (st : Store) {key key' : String} (v : RVal) (h : key' ≠ key) :
    (st.setKey key v).hgetall key' = st.hgetall key' := by
  unfold Store.hgetall
  rw [get_setKey_ne st v h]

theorem hfield_hset_single (st : Store) (key field : String) (v : HVal) :
    (st.hset key [(field, v)]).hfield key field = some v := by
  show Store.hfield
    (st.setKey key (RVal.hash ([((field, v))].foldl (fun acc p => aset acc p.1 p.2)
      (st.hgetall key)))) key field = some v
  unfold Store.hfield Store.hgetall
  rw [get_setKey_self]
  simp [alookup_aset_self]

theorem hfield_hset_ne (st : Store) {key key' : String} (pairs : List (String × HVal))
    (field : String) (h : key' ≠ key) :
    (st.hset key pairs).hfield key' field = st.hfield key' field := by
  unfold Store.hfield
  rw [show (st.hset key pairs).hgetall key' = st.hgetall key' from by
    unfold Store.hset
    exact hgetall_setKey_ne _ _ h]

theorem hfield_zadd_ne (st : Store) {key key' : String} (score : ℚ) (member : String)
    (field : String) (h : key' ≠ key) :
    (st.zadd key score member).hfield key' field = st.hfield key' field := by
  unfold Store.zadd Store.hfield Store.hgetall
  rw [get_setKey_ne _ _ h]

/-! ### C9 and C10: frame behaviour of `setPageRanks` and `removeSymbol` -/

/-- C9: calling `setPageRanks` with an empty map leaves the store completely
unchanged — the early `if (ranks.size === 0) return` fires before the
`pagerank` sorted set is cleared, so previously stored PageRank data is
retained. -/
theorem C9_setPageRanks_empty_map_noop (proj : String) (st : Store) :
    setPageRanks proj st [] = st := by
  simp [setPageRanks]

/-- C10: for an id with no stored symbol record, `removeSymbol` returns after
the `getSymbol` null check without running the cleanup script, leaving the
entire store unchanged. -/
theorem C10_removeSymbol_missing_noop (proj : String) (st : Store) (id : String)
    (h : st.get (k proj ("symbol:" ++ id)) = none) :
    removeSymbol proj st id = st := by
  simp [removeSymbol, getSymbol, Store.hgetall, h]

/-- Witness for C10 at the empty store and id `x`. -/
theorem C10_removeSymbol_missing_noop_witness :
    (Store.get ([] : Store) (k "p" ("symbol:" ++ "x")) = none) ∧
      removeSymbol "p" ([] : Store) "x" = ([] : Store) :=
  ⟨rfl, C10_removeSymbol_missing_noop "p" [] "x" rfl⟩

/-! ### C1: the cleanup script misses reverse memberships and edge records -/

/-- C1 (code bug, evaluated at the failing input): after `removeSymbol` of
`f.ts:B:2` in a store holding the edge `f.ts:A:1 → f.ts:B:2`, the id is still
a member of `deps:from:f.ts:A:1` and the edge record
`deps:from:f.ts:A:1:to:f.ts:B:2` still exists, because the Lua script's
reverse-direction cleanup concatenates its keys from `gsub(depsToKey, ':to:',
':from:')` without removing the removed symbol's own id, producing
`deps:from:<id><fromId>…` instead of `deps:from:<fromId>…`.  The symbol hash
and the `pagerank` entry are removed as intended. -/
theorem C1_removeSymbol_leaves_stale_references :
    ((removeSymbol "p" c1Store "f.ts:B:2").smembers (k "p" "deps:from:f.ts:A:1")
        = ["f.ts:B:2"]) ∧
    ((removeSymbol "p" c1Store "f.ts:B:2").get (k "p" "deps:from:f.ts:A:1:to:f.ts:B:2")
        = some (RVal.hash [("type", HVal.str "extends")])) ∧
    ((removeSymbol "p" c1Store "f.ts:B:2").get (k "p" "symbol:f.ts:B:2") = none) ∧
    ((removeSymbol "p" c1Store "f.ts:B:2").zscore (k "p" "pagerank") "f.ts:B:2" = none) := by
  refine ⟨?_, ?_, ?_, ?_⟩ <;> rfl

/-! ### C5: `scan` without a tracked map -/

/-- C5 (counterexample): invoked without a tracked map on a project with one
candidate file, `scan` returns that file in `files` but leaves `changed`
empty, so `changed ≠ files`. -/
theorem C5_counterexample_changed_not_files :
    (scan [⟨"/p/a.ts", 5, 10⟩] (fun _ => false) 1000000 (fun _ => "h") false none).files
        = [⟨"/p/a.ts", 5, 10, none⟩] ∧
    (scan [⟨"/p/a.ts", 5, 10⟩] (fun _ => false) 1000000 (fun _ => "h") false none).changed
        = [] ∧
    (scan [⟨"/p/a.ts", 5, 10⟩] (fun _ => false) 1000000 (fun _ => "h") false none).changed
      ≠ (scan [⟨"/p/a.ts", 5, 10⟩] (fun _ => false) 1000000 (fun _ => "h") false none).files := by
  refine ⟨rfl, rfl, ?_⟩
  decide

/-- Helper: without a tracked map the scan loop never appends to `changed`. -/
theorem scanFold_none_changed (excluded : String → Bool) (maxFileSize : ℕ)
    (hashOf : String → String) (incremental : Bool) :
    ∀ (entries : List FileEntry) (acc : List FileInfo × List FileInfo),
      (entries.foldl (scanStep excluded maxFileSize hashOf incremental none) acc).2 = acc.2 := by
  intro entries
  induction entries with
  | nil => intro acc; rfl
  | cons e rest ih =>
      intro acc
      rw [List.foldl_cons, ih]
      unfold scanStep
      by_cases h1 : excluded e.path
      · simp [h1]
      · by_cases h2 : e.size > maxFileSize
        · simp [h1, h2]
        · cases incremental <;> simp [h1, h2]

/-- C5 (amended): when `scan` is invoked without a tracked map, `changed` and
`deleted` are both empty (regardless of the `incremental` flag); it is the
caller `indexProject` that builds a scan result with `changed == files` for
full runs. -/
theorem C5_scan_without_tracked_map (entries : List FileEntry)
    (excluded : String → Bool) (maxFileSize : ℕ) (hashOf : String → String)
    (incremental : Bool) :
    (scan entries excluded maxFileSize hashOf incremental none).changed = [] ∧
    (scan entries excluded maxFileSize hashOf incremental none).deleted = [] := by
  constructor
  · exact scanFold_none_changed excluded maxFileSize hashOf incremental entries ([], [])
  · show (match incremental, (none : Option (List (String × Tracking))) with
      | true, some tracked => (tracked.map (fun p => p.1)).filter (fun path =>
          ¬ ((scanFold entries excluded maxFileSize hashOf incremental none).1.map
            (fun f => f.path)).contains path)
      | _, _ => ([] : List String)) = []
    cases incremental <;> rfl

/-! ### C7: impact ordering on the chain X → Y → Z -/

/-- C7 (counterexample): on the chain `X → Y → Z` in the single file
`/p/f.ts`, `getImpact` returns `suggestedOrder = [X, Y, Z]` — `Z` comes last,
not first, so the claimed order (`Z` before `Y` before `X`) is false. -/
theorem C7_counterexample_impact_order :
    ((getImpactSuggestedOrder "p" c7Store ["/p/f.ts"]).map Sym.name = ["X", "Y", "Z"]) ∧
    ¬ (((getImpactSuggestedOrder "p" c7Store ["/p/f.ts"]).map Sym.name).indexOf "Z"
        < ((getImpactSuggestedOrder "p" c7Store ["/p/f.ts"]).map Sym.name).indexOf "Y") := by
  refine ⟨rfl, by decide⟩

/-- C7 (amended): on the chain `X → Y → Z` in one TypeScript file, the
`suggestedOrder` of `getImpact` lists `X` before `Y` before `Z` (each symbol
before the symbols it depends on), the reverse of the order the claim
states. -/
theorem C7_impact_order_follows_edges :
    (getImpactSuggestedOrder "p" c7Store ["/p/f.ts"]).map Sym.id
      = ["/p/f.ts:X:1", "/p/f.ts:Y:2", "/p/f.ts:Z:3"] := rfl

/-! ### C8: `extends` resolution searches all files, not just the local one -/

/-- C8 (counterexample): for `class B extends A` in `b.ts` and a symbol `A`
declared in the different file `a.ts`, `resolveImportDependencies` emits an
`extends` edge from `B` to the non-local `A` — `findSymbolsByName` searches
every file of the batch. -/
theorem C8_counterexample_nonlocal_extends :
    (({ fromId := "b.ts:B:1", toId := "a.ts:A:1", type := "extends",
        location := some c8B.location } : Dep) ∈ resolveImportDependencies c8B c8Map) ∧
    c8A.filepath ≠ c8B.filepath := by
  refine ⟨?_, by decide⟩
  decide

/-! ### C4: the initial PageRank multiplier -/

/-- C4 (counterexample): for an unexported class in a non-entry-point file the
resolver's initial rank is `(1/N) · 1.3`, not the claimed `(1/N) · 1.2`:
`DependencyResolver.computePageRank` weights classes/interfaces with 1.3 and
functions/methods with 1.15. -/
theorem C4_counterexample_multiplier :
    alookup (initRanks [c4Sym] 1) c4Sym.id = some (13 / 10) ∧
    (1 / (1 : ℚ)) * claimMultiplier c4Sym = 6 / 5 ∧
    (13 / 10 : ℚ) ≠ 6 / 5 := by
  have hb : basenameOf "/p/a.ts" = "a.ts" := rfl
  have hm : resolverMultiplier c4Sym = 13 / 10 := by
    simp [resolverMultiplier, c4Sym, hb]
  have hc : claimMultiplier c4Sym = 6 / 5 := by
    have he : claimEntryPointB "/p/a.ts" = false := rfl
    simp [claimMultiplier, c4Sym, he]
  refine ⟨?_, ?_, by norm_num⟩
  · simp only [initRanks, List.foldl_cons, List.foldl_nil]
    rw [alookup_aset_self, hm]
    norm_num
  · rw [hc]
    norm_num

/-- C4 (amended): the initial rank the resolver's PageRank assigns to each
symbol is `(1/N)` times the product of 1.5 when exported, 2.0 when the file's
basename is `index`/`main` with extension `.ts`/`.js`/`.py` (no `/bin/` or
`/src/main/` clause), and 1.3 for `class`/`interface`, else 1.15 for
`function`/`method`, else 1. -/
theorem C4_initial_rank_formula (symbols : List Sym)
    (hnd : (symbols.map Sym.id).Nodup) {s : Sym} (hs : s ∈ symbols) :
    alookup (initRanks symbols symbols.length) s.id
      = some ((1 / ((symbols.length : ℕ) : ℚ)) * resolverMultiplier s) := by
  unfold initRanks
  exact foldl_aset_lookup Sym.id
    (fun sym => (1 / ((symbols.length : ℕ) : ℚ)) * resolverMultiplier sym)
    symbols hnd hs []

/-- Witness for C4's amended statement on a one-symbol list. -/
theorem C4_initial_rank_formula_witness :
    (([c4Sym].map Sym.id).Nodup) ∧
    alookup (initRanks [c4Sym] ([c4Sym].length)) c4Sym.id
      = some ((1 / (([c4Sym].length : ℕ) : ℚ)) * resolverMultiplier c4Sym) :=
  ⟨by decide, C4_initial_rank_formula [c4Sym] (by decide) (by simp)⟩

/-! ### C6: correctness of Kahn's topological sort -/

/-- Decrementing each member of a duplicate-free list once: the final counter
and the list of nodes that reached exactly zero (in list order). -/
theorem kahnFold_spec (l : List String) :
    ∀ (d : String → ℤ) (acc : List String), l.Nodup →
      (∀ v, (l.foldl (fun p n =>
          (updFn p.1 n (p.1 n - 1), if p.1 n - 1 = 0 then p.2 ++ [n] else p.2))
          (d, acc)).1 v = d v - (if v ∈ l then 1 else 0)) ∧
      (l.foldl (fun p n =>
          (updFn p.1 n (p.1 n - 1), if p.1 n - 1 = 0 then p.2 ++ [n] else p.2))
          (d, acc)).2 = acc ++ l.filter (fun n => decide (d n = 1)) := by
  induction l with
  | nil =>
      intro d acc _
      constructor
      · intro v; simp
      · simp
  | cons n0 rest ih =>
      intro d acc hnd
      rw [List.nodup_cons] at hnd
      have ih' := ih (updFn d n0 (d n0 - 1))
        (if d n0 - 1 = 0 then acc ++ [n0] else acc) hnd.2
      constructor
      · intro v
        rw [List.foldl_cons]
        rw [ih'.1 v]
        by_cases hv : v = n0
        · subst hv
          rw [if_neg hnd.1, if_pos (List.mem_cons_self _ _)]
          simp [updFn]
        · have : updFn d n0 (d n0 - 1) v = d v := by simp [updFn, hv]
          rw [this]
          by_cases hvr : v ∈ rest
          · rw [if_pos hvr, if_pos (List.mem_cons_of_mem _ hvr)]
          · rw [if_neg hvr, if_neg (by simp [hv, hvr])]
      · rw [List.foldl_cons]
        rw [ih'.2]
        have hcongr : rest.filter (fun n => decide (updFn d n0 (d n0 - 1) n = 1))
            = rest.filter (fun n => decide (d n = 1)) := by
          apply List.filter_congr
          intro n hn
          have hne : n ≠ n0 := fun hc => hnd.1 (hc ▸ hn)
          have : updFn d n0 (d n0 - 1) n = d n := by simp [updFn, hne]
          rw [this]
        rw [hcongr]
        by_cases h0 : d n0 - 1 = 0
        · have h1 : d n0 = 1 := by omega
          rw [if_pos h0, List.filter_cons, if_pos (by simpa using h1)]
          simp
        · have h1 : ¬ d n0 = 1 := by omega
          rw [if_neg h0, List.filter_cons, if_neg (by simpa using h1)]

/-- Incrementing the counter of each member of a duplicate-free list once. -/
theorem incrFold (l : List String) :
    ∀ (d : String → ℤ), l.Nodup → ∀ v,
      (l.foldl (fun dd x => updFn dd x (dd x + 1)) d) v
        = d v + (if v ∈ l then 1 else 0) := by
  induction l with
  | nil => intro d _ v; simp
  | cons x rest ih =>
      intro d hnd v
      rw [List.nodup_cons] at hnd
      rw [List.foldl_cons, ih _ hnd.2 v]
      by_cases hv : v = x
      · subst hv
        rw [if_neg hnd.1, if_pos (List.mem_cons_self _ _)]
        simp [updFn]
      · have : updFn d x (d x + 1) v = d v := by simp [updFn, hv]
        rw [this]
        by_cases hvr : v ∈ rest
        · rw [if_pos hvr, if_pos (List.mem_cons_of_mem _ hvr)]
        · rw [if_neg hvr, if_neg (by simp [hv, hvr])]

/-- The in-degree builder counts, for each node, the edges into it. -/
theorem buildDeg_gen (adj : String → List String) (ha : ∀ u, (adj u).Nodup) :
    ∀ (L : List String) (d : String → ℤ) (v : String),
      (L.foldl (fun deg u => (adj u).foldl (fun dd x => updFn dd x (dd x + 1)) deg) d) v
        = d v + (L.countP (fun u => decide (v ∈ adj u)) : ℤ) := by
  intro L
  induction L with
  | nil => intro d v; simp
  | cons u rest ih =>
      intro d v
      rw [List.foldl_cons, ih _ v, incrFold _ _ (ha u) v, List.countP_cons]
      by_cases hm : v ∈ adj u
      · rw [if_pos hm]
        simp [hm]
        omega
      · rw [if_neg hm]
        simp [hm]

theorem buildDeg_eq_remInDeg (adj : String → List String) (nodeIds : List String)
    (ha : ∀ u, (adj u).Nodup) (v : String) :
    buildDeg adj nodeIds v = remInDeg adj nodeIds [] v := by
  unfold buildDeg remInDeg
  rw [buildDeg_gen adj ha nodeIds _ v]
  have : nodeIds.countP (fun u => decide (v ∈ adj u) && !(decide (u ∈ ([] : List String))))
      = nodeIds.countP (fun u => decide (v ∈ adj u)) := by
    apply List.countP_congr
    intro u _
    simp
  rw [this]
  simp

/-- Emitting `q0` decrements the remaining in-degree of exactly its
out-neighbours. -/
theorem remInDeg_append (adj : String → List String) {nodeIds res : List String}
    {q0 : String} (hq0n : q0 ∈ nodeIds) (hq0r : q0 ∉ res) (hnd : nodeIds.Nodup)
    (v : String) :
    remInDeg adj nodeIds (res ++ [q0]) v
      = remInDeg adj nodeIds res v - (if v ∈ adj q0 then 1 else 0) := by
  unfold remInDeg
  induction nodeIds with
  | nil => simp at hq0n
  | cons w rest ih =>
      rw [List.nodup_cons] at hnd
      rw [List.countP_cons, List.countP_cons]
      rcases List.mem_cons.mp hq0n with rfl | hq0rest
      · have hrest : rest.countP
            (fun u => decide (v ∈ adj u) && !(decide (u ∈ res ++ [q0])))
            = rest.countP (fun u => decide (v ∈ adj u) && !(decide (u ∈ res))) := by
          apply List.countP_congr
          intro u hu
          have hne : u ≠ q0 := fun hc => hnd.1 (hc ▸ hu)
          simp [List.mem_append, hne]
        rw [hrest]
        have h1 : (decide (v ∈ adj q0) && !(decide (q0 ∈ res ++ [q0]))) = false := by
          simp
        have h2 : (decide (v ∈ adj q0) && !(decide (q0 ∈ res)))
            = decide (v ∈ adj q0) := by
          simp [hq0r]
        rw [h1, h2]
        by_cases hm : v ∈ adj q0
        · simp [hm]
        · simp [hm]
      · have hwq : w ≠ q0 := fun hc => hnd.1 (hc ▸ hq0rest)
        have h3 : (decide (v ∈ adj w) && !(decide (w ∈ res ++ [q0])))
            = (decide (v ∈ adj w) && !(decide (w ∈ res))) := by
          simp [List.mem_append, hwq]
        rw [h3]
        have ih' := ih hq0rest hnd.2
        by_cases hm : v ∈ adj q0
        · rw [if_pos hm] at ih' ⊢
          push_cast at ih' ⊢
          omega
        · rw [if_neg hm] at ih' ⊢
          push_cast at ih' ⊢
          omega

theorem kahnStep_eq (adj : String → List String) (q0 : String) (deg : String → ℤ) :
    kahnStep adj q0 deg = (adj q0).foldl (fun p n =>
      (updFn p.1 n (p.1 n - 1), if p.1 n - 1 = 0 then p.2 ++ [n] else p.2))
      (deg, []) := rfl

/-- One Kahn iteration preserves the loop invariant. -/
theorem kahnInv_step (adj : String → List String) (nodeIds : List String)
    (hn : nodeIds.Nodup) (ha : ∀ u, (adj u).Nodup)
    (hsub : ∀ a b, b ∈ adj a → b ∈ nodeIds)
    {deg : String → ℤ} {q0 : String} {rest res : List String}
    (hinv : KahnInv adj nodeIds deg (q0 :: rest) res) :
    KahnInv adj nodeIds (kahnStep adj q0 deg).1
      (rest ++ (kahnStep adj q0 deg).2) (res ++ [q0]) := by
  have hspec1 : ∀ v, (kahnStep adj q0 deg).1 v
      = deg v - (if v ∈ adj q0 then 1 else 0) := by
    rw [kahnStep_eq]
    exact (kahnFold_spec (adj q0) deg [] (ha q0)).1
  have hspec2 : (kahnStep adj q0 deg).2
      = (adj q0).filter (fun n => decide (deg n = 1)) := by
    rw [kahnStep_eq]
    simpa using (kahnFold_spec (adj q0) deg [] (ha q0)).2
  have hq0nid : q0 ∈ nodeIds := hinv.queue_sub q0 (List.mem_cons_self _ _)
  have hq0res : q0 ∉ res := by
    intro hc
    rcases List.nodup_append.mp hinv.nodup with ⟨-, -, hdisj⟩
    exact hdisj hc (List.mem_cons_self _ _)
  have hdeg' : ∀ v, (kahnStep adj q0 deg).1 v
      = remInDeg adj nodeIds (res ++ [q0]) v := by
    intro v
    rw [hspec1 v, hinv.deg_eq v, remInDeg_append adj hq0nid hq0res hn v]
  have hnewly_mem : ∀ n ∈ (kahnStep adj q0 deg).2, n ∈ adj q0 ∧ deg n = 1 := by
    intro n hn2
    rw [hspec2] at hn2
    have := List.mem_filter.mp hn2
    exact ⟨this.1, by simpa using this.2⟩
  have hnewly_closed : ∀ n ∈ (kahnStep adj q0 deg).2,
      ∀ u ∈ nodeIds, n ∈ adj u → u ∈ res ++ [q0] := by
    intro n hn2 u hu hadj
    obtain ⟨hm, h1⟩ := hnewly_mem n hn2
    have h0 : remInDeg adj nodeIds (res ++ [q0]) n = 0 := by
      rw [remInDeg_append adj hq0nid hq0res hn n, if_pos hm, ← hinv.deg_eq n, h1]
      norm_num
    unfold remInDeg at h0
    have h0' : nodeIds.countP
        (fun w => decide (n ∈ adj w) && !(decide (w ∈ res ++ [q0]))) = 0 := by
      exact_mod_cast h0
    rw [List.countP_eq_zero] at h0'
    by_contra hc
    have := h0' u hu
    simp [hadj, hc] at this
  have hfresh : ∀ n ∈ (kahnStep adj q0 deg).2, n ∉ res ∧ n ∉ q0 :: rest := by
    intro n hn2
    obtain ⟨hm, h1⟩ := hnewly_mem n hn2
    have hrem1 : remInDeg adj nodeIds res n = 1 := by
      rw [← hinv.deg_eq n]
      exact h1
    unfold remInDeg at hrem1
    have hrem1' : nodeIds.countP
        (fun w => decide (n ∈ adj w) && !(decide (w ∈ res))) = 1 := by
      exact_mod_cast hrem1
    have hpos : 0 < nodeIds.countP
        (fun w => decide (n ∈ adj w) && !(decide (w ∈ res))) := by
      omega
    rw [List.countP_pos] at hpos
    obtain ⟨w, hw, hwb⟩ := hpos
    have hwb' : n ∈ adj w ∧ w ∉ res := by simpa using hwb
    constructor
    · intro hc
      exact hwb'.2 (hinv.res_closed n hc w hw hwb'.1)
    · intro hc
      exact hwb'.2 (hinv.queue_closed n hc w hw hwb'.1)
  refine ⟨?_, ?_, ?_, ?_, hdeg', ?_, ?_, ?_⟩
  · intro v hv u hu hadj
    rcases List.mem_append.mp hv with h | h
    · exact List.mem_append_left _
        (hinv.queue_closed v (List.mem_cons_of_mem _ h) u hu hadj)
    · exact hnewly_closed v h u hu hadj
  · intro v hv u hu hadj
    rcases List.mem_append.mp hv with h | h
    · exact List.mem_append_left _ (hinv.res_closed v h u hu hadj)
    · have hveq : v = q0 := by simpa using h
      subst hveq
      exact List.mem_append_left _
        (hinv.queue_closed v (List.mem_cons_self _ _) u hu hadj)
  · rw [List.pairwise_append]
    refine ⟨hinv.res_pairwise, by simp [noBack], ?_⟩
    intro x hx y hy
    have hyeq : y = q0 := by simpa using hy
    subst hyeq
    rintro ⟨-, hxadj⟩
    exact hq0res (hinv.res_closed x hx y hq0nid hxadj)
  · intro v hv
    rcases List.mem_append.mp hv with h | h
    · exact hinv.res_noself v h
    · have hveq : v = q0 := by simpa using h
      subst hveq
      rintro ⟨hnid, hself⟩
      exact hq0res (hinv.queue_closed v (List.mem_cons_self _ _) v hnid hself)
  · have hbase : ((res ++ [q0]) ++ rest).Nodup := by
      have h0 := hinv.nodup
      rwa [show res ++ q0 :: rest = (res ++ [q0]) ++ rest by simp] at h0
    rw [show (res ++ [q0]) ++ (rest ++ (kahnStep adj q0 deg).2)
        = ((res ++ [q0]) ++ rest) ++ (kahnStep adj q0 deg).2 from
      (List.append_assoc _ _ _).symm]
    rw [List.nodup_append]
    refine ⟨hbase, ?_, ?_⟩
    · rw [hspec2]
      exact (ha q0).filter _
    · intro a haX ha2
      obtain ⟨hnr, hnq⟩ := hfresh a ha2
      rcases List.mem_append.mp haX with h | h
      · rcases List.mem_append.mp h with h' | h'
        · exact hnr h'
        · exact hnq (by simp [List.mem_singleton.mp h'])
      · exact hnq (List.mem_cons_of_mem _ h)
  · intro x hx
    rcases List.mem_append.mp hx with h | h
    · exact hinv.queue_sub x (List.mem_cons_of_mem _ h)
    · exact hsub q0 x (hnewly_mem x h).1
  · intro x hx
    rcases List.mem_append.mp hx with h | h
    · exact hinv.res_sub x h
    · have hxeq : x = q0 := by simpa using h
      exact hxeq ▸ hq0nid

/-- The loop preserves the invariant and its result satisfies `KahnOut`. -/
theorem kahnLoop_out (adj : String → List String) (nodeIds : List String)
    (hn : nodeIds.Nodup) (ha : ∀ u, (adj u).Nodup)
    (hsub : ∀ a b, b ∈ adj a → b ∈ nodeIds) :
    ∀ (fuel : ℕ) (queue res : List String) (deg : String → ℤ),
      KahnInv adj nodeIds deg queue res →
      KahnOut adj nodeIds (kahnLoop adj fuel queue deg res) := by
  intro fuel
  induction fuel with
  | zero =>
      intro queue res deg hinv
      exact ⟨hinv.res_pairwise, hinv.res_noself, hinv.res_sub⟩
  | succ m ih =>
      intro queue res deg hinv
      cases queue with
      | nil => exact ⟨hinv.res_pairwise, hinv.res_noself, hinv.res_sub⟩
      | cons q0 rest =>
          show KahnOut adj nodeIds (kahnLoop adj m
            (rest ++ (kahnStep adj q0 deg).2) (kahnStep adj q0 deg).1 (res ++ [q0]))
          exact ih _ _ _ (kahnInv_step adj nodeIds hn ha hsub hinv)

/-- The starting state of `topologicalSort` satisfies the invariant. -/
theorem kahnInit_inv (adj : String → List String) (nodeIds : List String)
    (hn : nodeIds.Nodup) (ha : ∀ u, (adj u).Nodup) :
    KahnInv adj nodeIds (buildDeg adj nodeIds)
      (nodeIds.filter (fun id => decide (buildDeg adj nodeIds id = 0))) [] := by
  refine ⟨?_, by simp, by simp, by simp, ?_, ?_, ?_, by simp⟩
  · intro v hv u hu hadj
    have h0 : buildDeg adj nodeIds v = 0 := by
      simpa using (List.mem_filter.mp hv).2
    rw [buildDeg_eq_remInDeg adj nodeIds ha v] at h0
    unfold remInDeg at h0
    have h0' : nodeIds.countP
        (fun w => decide (v ∈ adj w) && !(decide (w ∈ ([] : List String)))) = 0 := by
      exact_mod_cast h0
    rw [List.countP_eq_zero] at h0'
    have := h0' u hu
    simp [hadj] at this
  · exact fun v => buildDeg_eq_remInDeg adj nodeIds ha v
  · simpa using hn.filter _
  · intro x hx
    exact (List.mem_filter.mp hx).1

theorem smembers_nodup {st : Store} (hsets : SetsWF st) (key : String) :
    (st.smembers key).Nodup := by
  unfold Store.smembers
  cases hget : st.get key with
  | none => simp
  | some v =>
      cases v with
      | set members =>
          have := hsets _ (alookup_mem hget)
          simpa [rvalSetNodupB] using this
      | hash f => simp
      | zset z => simp
      | strv s => simp

theorem getDependenciesFrom_toIds (proj : String) (st : Store) (u : String) :
    (getDependenciesFrom proj st u).map (fun d => d.toId)
      = st.smembers (k proj ("deps:from:" ++ u)) := by
  unfold getDependenciesFrom
  generalize st.smembers (k proj ("deps:from:" ++ u)) = l
  induction l with
  | nil => rfl
  | cons x xs ih => simp [ih]


/-- Membership in an append-accumulating fold. -/
theorem mem_foldl_append {α γ : Type} (g : γ → List α) (l : List γ)
    (init : List α) (a : α) :
    a ∈ l.foldl (fun acc x => acc ++ g x) init ↔ a ∈ init ∨ ∃ x ∈ l, a ∈ g x := by
  induction l generalizing init with
  | nil => simp
  | cons x rest ih =>
      rw [List.foldl_cons, ih]
      simp only [List.mem_append, List.mem_cons]
      constructor
      · rintro ((h | h) | ⟨y, hy, hm⟩)
        · exact Or.inl h
        · exact Or.inr ⟨x, Or.inl rfl, h⟩
        · exact Or.inr ⟨y, Or.inr hy, hm⟩
      · rintro (h | ⟨y, (rfl | hy), hm⟩)
        · exact Or.inl (Or.inl h)
        · exact Or.inl (Or.inr hm)
        · exact Or.inr ⟨y, hy, hm⟩

/-- `findSymbolsByName` returns exactly the symbols of that name, over all
files of the map. -/
theorem mem_findSymbolsByName (name : String) (symbolsByFile : List (String × List Sym))
    (p : Sym) :
    p ∈ findSymbolsByName name symbolsByFile ↔
      ∃ entry ∈ symbolsByFile, p ∈ entry.2 ∧ p.name = name := by
  unfold findSymbolsByName
  refine Iff.trans (mem_foldl_append
    (fun (entry : String × List Sym) => entry.2.filter (fun s => s.name = name))
    symbolsByFile [] p) ?_
  simp [List.mem_filter]

/-- Every dependency of the `implements` half of `resolveImportDependencies`
carries type `implements`. -/
theorem implements_deps_type (sym : Sym) (symbolsByFile : List (String × List Sym))
    (names : List String) {d : Dep}
    (h : d ∈ names.foldl (fun acc ifaceName =>
      acc ++ (findSymbolsByName ifaceName symbolsByFile).map (fun iface =>
        { fromId := sym.id, toId := iface.id, type := "implements"
          location := some sym.location })) []) :
    d.type = "implements" := by
  rcases (mem_foldl_append _ names [] d).mp h with h1 | ⟨x, _, h2⟩
  · simp at h1
  · rcases List.mem_map.mp h2 with ⟨q, _, rfl⟩
    rfl

/-- C8 (amended): an `extends` edge from `sym` to target id `tid` is emitted
iff the signature is nonempty, `/extends\s+(\w+)/` captures some `name`, and
some file of the batch — any file, not only `sym`'s own — declares a symbol
named `name` with id `tid`.  One edge is emitted per such symbol. -/
theorem C8_extends_edges_characterization (sym : Sym)
    (symbolsByFile : List (String × List Sym)) (tid : String) :
    (({ fromId := sym.id, toId := tid, type := "extends",
        location := some sym.location } : Dep) ∈
      resolveImportDependencies sym symbolsByFile) ↔
    (sym.signature ≠ "" ∧ ∃ name, extendsTarget sym.signature = some name ∧
      ∃ entry ∈ symbolsByFile, ∃ p ∈ entry.2, p.name = name ∧ p.id = tid) := by
  unfold resolveImportDependencies
  by_cases hsig : sym.signature = ""
  · simp [hsig]
  · rw [if_neg hsig]
    cases he : extendsTarget sym.signature with
    | none =>
        simp only [he]
        constructor
        · intro hmem
          rw [List.nil_append] at hmem
          cases hi : implementsTargets sym.signature with
          | none =>
              rw [hi] at hmem
              simp at hmem
          | some names =>
              rw [hi] at hmem
              exact absurd (show ("extends" : String) = "implements" from
                implements_deps_type sym symbolsByFile names hmem) (by decide)
        · rintro ⟨-, name, hn, -⟩
          simp at hn
    | some name =>
        simp only [he]
        constructor
        · intro hmem
          rcases List.mem_append.mp hmem with hext | himpl
          · rcases List.mem_map.mp hext with ⟨p, hp, heq⟩
            have hid : p.id = tid := congrArg Dep.toId heq
            rcases (mem_findSymbolsByName name symbolsByFile p).mp hp with
              ⟨entry, hentry, hpe, hpn⟩
            exact ⟨hsig, name, rfl, entry, hentry, p, hpe, hpn, hid⟩
          · cases hi : implementsTargets sym.signature with
            | none =>
                rw [hi] at himpl
                simp at himpl
            | some names =>
                rw [hi] at himpl
                exact absurd (show ("extends" : String) = "implements" from
                  implements_deps_type sym symbolsByFile names himpl) (by decide)
        · rintro ⟨-, name', hn, entry, hentry, p, hpe, hpn, hid⟩
          have hnn : name' = name := (Option.some.inj hn).symm
          subst hnn
          apply List.mem_append.mpr
          apply Or.inl
          apply List.mem_map.mpr
          refine ⟨p, (mem_findSymbolsByName name' symbolsByFile p).mpr
            ⟨entry, hentry, hpe, hpn⟩, ?_⟩
          rw [hid]

/-! ### C2: lemmas on the PageRank pipeline -/

theorem resolverMultiplier_pos (s : Sym) : 0 < resolverMultiplier s := by
  unfold resolverMultiplier
  dsimp only
  split_ifs <;> norm_num

theorem alookup_getD_nonneg {rank : List (String × ℚ)}
    (h : ∀ p ∈ rank, 0 ≤ p.2) (u : String) : 0 ≤ (alookup rank u).getD 0 := by
  cases hl : alookup rank u with
  | none => simp
  | some v =>
      have := h _ (alookup_mem hl)
      simpa using this

theorem inSum_nonneg (graph : List (String × List String)) {rank : List (String × ℚ)}
    (h : ∀ p ∈ rank, 0 ≤ p.2) (id : String) : 0 ≤ inSum graph rank id := by
  unfold inSum
  suffices hgen : ∀ (g : List (String × List String)) (init : ℚ), 0 ≤ init →
      0 ≤ g.foldl (fun sum entry =>
        if id ∈ entry.2 then
          let fromRank := (alookup rank entry.1).getD 0
          let outDegree := entry.2.length
          if outDegree > 0 then sum + fromRank / (outDegree : ℚ) else sum
        else sum) init from hgen graph 0 le_rfl
  intro g
  induction g with
  | nil => intro init h0; simpa using h0
  | cons e rest ih =>
      intro init h0
      rw [List.foldl_cons]
      apply ih
      show 0 ≤ if id ∈ e.2 then
        (if ((e.2.length : ℕ) : ℚ) > 0
         then init + (alookup rank e.1).getD 0 / ((e.2.length : ℕ) : ℚ) else init)
        else init
      by_cases h1 : id ∈ e.2
      · rw [if_pos h1]
        by_cases h2 : ((e.2.length : ℕ) : ℚ) > 0
        · rw [if_pos h2]
          have hfr := alookup_getD_nonneg h e.1
          have hdiv : (0 : ℚ) ≤ (alookup rank e.1).getD 0 / ((e.2.length : ℕ) : ℚ) :=
            div_nonneg hfr (le_of_lt h2)
          linarith
        · rw [if_neg h2]
          exact h0
      · rw [if_neg h1]
        exact h0

theorem initRanks_values_pos {symbols : List Sym} {n : ℕ} (hn : 0 < n) :
    ∀ p ∈ initRanks symbols n, 0 < p.2 := by
  intro p hp
  unfold initRanks at hp
  rcases foldl_aset_mem Sym.id
    (fun sym => (1 / ((n : ℕ) : ℚ)) * resolverMultiplier sym) symbols [] hp with
    h | ⟨x, _, rfl⟩
  · simp at h
  · have h1 : (0 : ℚ) < 1 / ((n : ℕ) : ℚ) := by positivity
    exact mul_pos h1 (resolverMultiplier_pos x)

theorem iterStep_values_pos (graph : List (String × List String))
    {symbols : List Sym} {n : ℕ} (hn : 0 < n) {rank : List (String × ℚ)}
    (hrank : ∀ p ∈ rank, 0 ≤ p.2) :
    ∀ p ∈ iterStep graph symbols n (17 / 20) rank, 0 < p.2 := by
  intro p hp
  unfold iterStep at hp
  rcases foldl_aset_mem Sym.id
    (fun sym => (1 - 17 / 20) / ((n : ℕ) : ℚ) + (17 / 20) * inSum graph rank sym.id)
    symbols [] hp with h | ⟨x, _, rfl⟩
  · simp at h
  · have h1 : (0 : ℚ) < (1 - 17 / 20) / ((n : ℕ) : ℚ) := by
      have : ((n : ℕ) : ℚ) > 0 := by positivity
      positivity
    have h2 : (0 : ℚ) ≤ (17 / 20) * inSum graph rank x.id :=
      mul_nonneg (by norm_num) (inSum_nonneg graph hrank x.id)
    simp only
    linarith

theorem iterStep_keys_nodup (graph : List (String × List String))
    (symbols : List Sym) (n : ℕ) (damping : ℚ) (rank : List (String × ℚ)) :
    ((iterStep graph symbols n damping rank).map Prod.fst).Nodup := by
  unfold iterStep
  exact foldl_aset_keys_nodup Sym.id _ symbols [] (by simp)

theorem iterStep_covers (graph : List (String × List String))
    (symbols : List Sym) (n : ℕ) (damping : ℚ) (rank : List (String × ℚ))
    {s : Sym} (hs : s ∈ symbols) :
    (alookup (iterStep graph symbols n damping rank) s.id).isSome := by
  unfold iterStep
  exact foldl_aset_isSome Sym.id _ symbols [] hs

theorem initRanks_RankOK {symbols : List Sym} (hne : symbols ≠ []) :
    RankOK symbols (initRanks symbols symbols.length) := by
  refine ⟨initRanks_values_pos (List.length_pos.mpr hne), ?_, ?_⟩
  · unfold initRanks
    exact foldl_aset_keys_nodup Sym.id _ symbols [] (by simp)
  · intro s hs
    unfold initRanks
    exact foldl_aset_isSome Sym.id _ symbols [] hs

theorem iterStep_RankOK (graph : List (String × List String))
    {symbols : List Sym} (hne : symbols ≠ []) {rank : List (String × ℚ)}
    (hrank : ∀ p ∈ rank, 0 ≤ p.2) :
    RankOK symbols (iterStep graph symbols symbols.length (17 / 20) rank) :=
  ⟨iterStep_values_pos graph (List.length_pos.mpr hne) hrank,
   iterStep_keys_nodup graph symbols _ _ rank,
   fun _ hs => iterStep_covers graph symbols _ _ rank hs⟩

theorem iterLoop_RankOK (graph : List (String × List String))
    {symbols : List Sym} (hne : symbols ≠ []) (tol : ℚ) :
    ∀ (fuel : ℕ) (rank : List (String × ℚ)), RankOK symbols rank →
      RankOK symbols
        (iterLoop graph symbols symbols.length (17 / 20) tol fuel rank) := by
  intro fuel
  induction fuel with
  | zero => intro rank h; exact h
  | succ m ih =>
      intro rank h
      have hstep := iterStep_RankOK graph hne (fun p hp => le_of_lt (h.1 p hp))
      show RankOK symbols
        (if converged rank (iterStep graph symbols symbols.length (17 / 20) rank) tol
         then iterStep graph symbols symbols.length (17 / 20) rank
         else iterLoop graph symbols symbols.length (17 / 20) tol m
           (iterStep graph symbols symbols.length (17 / 20) rank))
      by_cases hc : converged rank
          (iterStep graph symbols symbols.length (17 / 20) rank) tol = true
      · rw [if_pos hc]
        exact hstep
      · rw [if_neg hc]
        exact ih _ hstep

theorem RankOK_ne_nil {symbols : List Sym} {rank : List (String × ℚ)}
    (h : RankOK symbols rank) (hsne : symbols ≠ []) : rank ≠ [] := by
  rcases List.exists_mem_of_ne_nil symbols hsne with ⟨s, hs⟩
  intro hnil
  have := h.2.2 s hs
  rw [hnil] at this
  simp [alookup] at this

theorem sum_map_pair_div (l : List (String × ℚ)) (T : ℚ) :
    ((l.map (fun p => (p.1, p.2 / T))).map (fun p => p.2)).sum
      = ((l.map (fun p => p.2)).sum) / T := by
  induction l with
  | nil => simp
  | cons p rest ih => simp only [List.map_cons, List.sum_cons, add_div, ih]

theorem map_fst_pair_div (l : List (String × ℚ)) (T : ℚ) :
    ((l.map (fun p => (p.1, p.2 / T))).map Prod.fst) = l.map Prod.fst := by
  induction l with
  | nil => simp
  | cons p rest ih => simp [ih]

theorem alookup_map_div (l : List (String × ℚ)) (T : ℚ) (key : String) :
    alookup (l.map (fun p => (p.1, p.2 / T))) key
      = (alookup l key).map (fun v => v / T) := by
  induction l with
  | nil => simp [alookup]
  | cons p rest ih =>
      obtain ⟨k', v⟩ := p
      by_cases hk : k' = key
      · simp [alookup, hk]
      · simp [alookup, hk, ih]

theorem normalizeRanks_props {symbols : List Sym} {rank : List (String × ℚ)}
    (hsne : symbols ≠ []) (h : RankOK symbols rank) :
    ((normalizeRanks rank).map Prod.fst).Nodup ∧
    ((normalizeRanks rank).map (fun p => p.2)).sum = 1 ∧
    normalizeRanks rank ≠ [] ∧
    (∀ s ∈ symbols, (alookup (normalizeRanks rank) s.id).isSome) := by
  have hrne : rank ≠ [] := RankOK_ne_nil h hsne
  have hT : 0 < (rank.map (fun p => p.2)).sum := by
    apply List.sum_pos
    · intro x hx
      rcases List.mem_map.mp hx with ⟨p, hp, rfl⟩
      exact h.1 p hp
    · simpa using hrne
  unfold normalizeRanks
  dsimp only
  rw [if_pos hT]
  refine ⟨?_, ?_, ?_, ?_⟩
  · rw [map_fst_pair_div]
    exact h.2.1
  · rw [sum_map_pair_div]
    exact div_self (ne_of_gt hT)
  · intro hc
    exact hrne (by simpa using hc)
  · intro s hs
    rw [alookup_map_div]
    have := h.2.2 s hs
    cases hl : alookup rank s.id with
    | none => rw [hl] at this; simp at this
    | some v => simp

/-- The computed rank map: duplicate-free keys, total exactly 1, nonempty, and
an entry for every stored symbol. -/
theorem computePageRankRanks_props (proj : String) (st : Store)
    (hne : getAllSymbols proj st ≠ []) :
    ((computePageRankRanks proj st).map Prod.fst).Nodup ∧
    ((computePageRankRanks proj st).map (fun p => p.2)).sum = 1 ∧
    (computePageRankRanks proj st ≠ []) ∧
    (∀ s ∈ getAllSymbols proj st, (alookup (computePageRankRanks proj st) s.id).isSome) := by
  have hloop := iterLoop_RankOK
    (buildGraph (getAllSymbols proj st) (getAllDependencies proj st)) hne
    (1 / 1000000) 30 _ (initRanks_RankOK hne)
  exact normalizeRanks_props hne hloop

theorem aset_append_not_mem {β : Type} {l : List (String × β)} {key : String}
    (v : β) (h : key ∉ l.map Prod.fst) : aset l key v = l ++ [(key, v)] := by
  induction l with
  | nil => simp [aset]
  | cons p rest ih =>
      obtain ⟨k', v'⟩ := p
      simp only [List.map_cons, List.mem_cons] at h
      push_neg at h
      simp only [aset, if_neg (Ne.symm h.1), List.cons_append]
      rw [ih h.2]

theorem symKey_ne_pagerankKey (proj id : String) :
    k proj ("symbol:" ++ id) ≠ k proj "pagerank" :=
  k_ne (symbol_key_ne_pagerank id)

/-- After the `setPageRanks` loop, the `pagerank` sorted set holds exactly the
previously written entries followed by the processed ones. -/
theorem setPageRanks_fold_zmembers (proj : String) :
    ∀ (suf pre : List (String × ℚ)) (cur : Store),
      cur.zmembers (k proj "pagerank") = pre →
      (((pre ++ suf).map Prod.fst).Nodup) →
      (suf.foldl (setPageRanksStep proj) cur).zmembers (k proj "pagerank")
        = pre ++ suf := by
  intro suf
  induction suf with
  | nil => intro pre cur hcur _; simpa using hcur
  | cons entry rest ih =>
      intro pre cur hcur hnd
      obtain ⟨id, q⟩ := entry
      rw [List.foldl_cons]
      have hid : id ∉ pre.map Prod.fst := by
        intro hmem
        have : ¬ id ∈ (pre.map Prod.fst) := by
          have h1 := hnd
          rw [List.map_append] at h1
          rcases List.nodup_append.mp h1 with ⟨-, -, hdisj⟩
          intro hc
          exact hdisj hc (by simp)
        exact this hmem
      have hstep : (setPageRanksStep proj cur (id, q)).zmembers (k proj "pagerank")
          = pre ++ [(id, q)] := by
        unfold setPageRanksStep
        dsimp only
        rw [zmembers_hset_ne _ _ (Ne.symm (symKey_ne_pagerankKey proj id)),
          zmembers_zadd_self, hcur, aset_append_not_mem _ hid]
      have hnd' : (((pre ++ [(id, q)]) ++ rest).map Prod.fst).Nodup := by
        rw [List.append_assoc]
        simpa using hnd
      rw [ih (pre ++ [(id, q)]) _ hstep hnd']
      simp

/-- Entries whose id does not occur in the remaining work list keep their
`pageRank` hash field through the rest of the loop. -/
theorem setPageRanks_fold_hfield_frame (proj : String) (id field : String) :
    ∀ (suf : List (String × ℚ)) (cur : Store),
      (∀ pair ∈ suf, pair.1 ≠ id) →
      (suf.foldl (setPageRanksStep proj) cur).hfield
          (k proj ("symbol:" ++ id)) field
        = cur.hfield (k proj ("symbol:" ++ id)) field := by
  intro suf
  induction suf with
  | nil => intro cur _; rfl
  | cons entry rest ih =>
      intro cur hne
      obtain ⟨id', q⟩ := entry
      rw [List.foldl_cons]
      rw [ih _ (fun pair hp => hne pair (List.mem_cons_of_mem _ hp))]
      have hid : id' ≠ id := hne (id', q) (List.mem_cons_self _ _)
      unfold setPageRanksStep
      dsimp only
      rw [hfield_hset_ne _ _ _ (k_ne (fun hc => hid (symbol_key_inj hc).symm)),
        hfield_zadd_ne _ _ _ _ (symKey_ne_pagerankKey proj id)]

/-- Every processed entry ends with its score mirrored in the symbol hash. -/
theorem setPageRanks_fold_mirror (proj : String) :
    ∀ (suf : List (String × ℚ)) (cur : Store), ((suf.map Prod.fst).Nodup) →
      ∀ pair ∈ suf,
        (suf.foldl (setPageRanksStep proj) cur).hfield
            (k proj ("symbol:" ++ pair.1)) "pageRank" = some (HVal.num pair.2) := by
  intro suf
  induction suf with
  | nil => intro cur _ pair hp; simp at hp
  | cons entry rest ih =>
      intro cur hnd pair hp
      obtain ⟨id, q⟩ := entry
      simp only [List.map_cons, List.nodup_cons] at hnd
      rcases List.mem_cons.mp hp with heq | hp'
      · subst heq
        rw [List.foldl_cons]
        dsimp only
        rw [setPageRanks_fold_hfield_frame proj id "pageRank" rest _
          (fun p hp2 hc => hnd.1 (hc ▸ List.mem_map_of_mem Prod.fst hp2))]
        unfold setPageRanksStep
        dsimp only
        exact hfield_hset_single _ _ _ _
      · rw [List.foldl_cons]
        exact ih _ hnd.2 pair hp'

/-- `setPageRanks` of a nonempty duplicate-free map: the sorted set becomes
exactly the map. -/
theorem setPageRanks_zmembers (proj : String) (st : Store)
    (ranks : List (String × ℚ)) (hnd : (ranks.map Prod.fst).Nodup)
    (hne : ranks ≠ []) :
    (setPageRanks proj st ranks).zmembers (k proj "pagerank") = ranks := by
  unfold setPageRanks
  rw [if_neg hne]
  have h0 : (st.del (k proj "pagerank")).zmembers (k proj "pagerank") = [] := by
    unfold Store.zmembers
    rw [get_del_self]
  have := setPageRanks_fold_zmembers proj ranks [] _ h0 (by simpa using hnd)
  simpa using this

/-- `setPageRanks` of a duplicate-free map mirrors each score into the symbol
hash. -/
theorem setPageRanks_mirror (proj : String) (st : Store)
    (ranks : List (String × ℚ)) (hnd : (ranks.map Prod.fst).Nodup)
    (hne : ranks ≠ []) {pair : String × ℚ} (hp : pair ∈ ranks) :
    (setPageRanks proj st ranks).hfield (k proj ("symbol:" ++ pair.1)) "pageRank"
      = some (HVal.num pair.2) := by
  unfold setPageRanks
  rw [if_neg hne]
  exact setPageRanks_fold_mirror proj ranks _ hnd pair hp

theorem strmk_data (s : String) : String.mk s.data = s := by
  cases s
  rfl

theorem k_assoc (proj a b : String) : k proj (a ++ b) = k proj a ++ b := by
  simp [k, String.append_assoc]

theorem isPreOf_append (l m : List Char) : isPreOf l (l ++ m) = true := by
  induction l with
  | nil => rfl
  | cons c rest ih => simpa [isPreOf] using ih

theorem strDrop_append (a b : String) : strDrop (a ++ b) a.length = b := by
  unfold strDrop
  rw [String.data_append]
  show String.mk ((a.data ++ b.data).drop a.data.length) = b
  rw [List.drop_left]

/-- What `SymsWF` says about one present symbol record: its `id` field equals
the key suffix and is nonempty. -/
theorem symsWF_field {proj : String} {st : Store} {id : String}
    {fields : List (String × HVal)} (hw : SymsWF proj st)
    (hget : Store.get st (k proj ("symbol:" ++ id)) = some (RVal.hash fields)) :
    hstr fields "id" = id ∧ id ≠ "" := by
  have h1 := hw _ (alookup_mem hget)
  unfold symEntryWFB at h1
  dsimp only at h1
  rw [k_assoc] at h1
  rw [String.data_append, if_pos (isPreOf_append _ _)] at h1
  rw [strDrop_append] at h1
  simpa using h1

/-- Every present symbol record surfaces in `getAllSymbols`, carrying its key
suffix as `id`. -/
theorem getAllSymbols_mem_of_get {proj : String} {st : Store} {id : String}
    {fields : List (String × HVal)} (hw : SymsWF proj st)
    (hget : Store.get st (k proj ("symbol:" ++ id)) = some (RVal.hash fields)) :
    ∃ s ∈ getAllSymbols proj st, s.id = id := by
  obtain ⟨hid, hne⟩ := symsWF_field hw hget
  have hfields : fields ≠ [] := by
    intro hc
    apply hne
    rw [← hid, hc]
    rfl
  unfold getAllSymbols
  dsimp only
  have hkey_mem : k proj ("symbol:" ++ id) ∈ st.map (fun p => p.1) :=
    List.mem_map_of_mem _ (alookup_mem hget)
  have h2 : k proj ("symbol:" ++ id) ∈
      (st.map (fun p => p.1)).filter
        (fun key => isPreOf (k proj "symbol:").data key.data) := by
    refine List.mem_filter.mpr ⟨hkey_mem, ?_⟩
    rw [k_assoc, String.data_append]
    exact isPreOf_append _ _
  have h3 : id ∈ ((st.map (fun p => p.1)).filter
      (fun key => isPreOf (k proj "symbol:").data key.data)).map
        (fun key => strDrop key (k proj "symbol:").length) := by
    refine List.mem_map.mpr ⟨k proj ("symbol:" ++ id), h2, ?_⟩
    rw [k_assoc]
    exact strDrop_append _ _
  have h4 : id ∈ (((st.map (fun p => p.1)).filter
      (fun key => isPreOf (k proj "symbol:").data key.data)).map
        (fun key => strDrop key (k proj "symbol:").length)).filter
        (fun i => i ≠ "") := by
    refine List.mem_filter.mpr ⟨h3, ?_⟩
    simpa using hne
  have h5 : Store.hgetall st (k proj "symbol:" ++ id) = fields := by
    unfold Store.hgetall
    rw [← k_assoc, hget]
  refine ⟨parseSym fields, List.mem_filterMap.mpr ⟨id, h4, ?_⟩, ?_⟩
  · dsimp only
    rw [h5, if_neg hfields]
  · simpa [parseSym] using hid

/-- C2: after the indexer's PageRank recomputation
(`DependencyResolver.computePageRank`) persists via `setPageRanks`, the stored
scores sum to 1 (exactly, in exact arithmetic — hence within 1e-9), and for
every present symbol id the sorted-set score equals the `pageRank` field
mirrored into the symbol's hash. -/
theorem C2_pagerank_sum_and_mirror (proj : String) (st : Store)
    (hwf : SymsWF proj st) (hne : getAllSymbols proj st ≠ []) :
    (|(((computePageRank proj st).zmembers (k proj "pagerank")).map
        (fun p => p.2)).sum - 1| ≤ 1 / 1000000000) ∧
    (∀ id fields, Store.get st (k proj ("symbol:" ++ id)) = some (RVal.hash fields) →
      ∃ q, (computePageRank proj st).zscore (k proj "pagerank") id = some q ∧
        (computePageRank proj st).hfield (k proj ("symbol:" ++ id)) "pageRank"
          = some (HVal.num q)) := by
  obtain ⟨hnd, hsum, hrne, hcov⟩ := computePageRankRanks_props proj st hne
  have hz : (computePageRank proj st).zmembers (k proj "pagerank")
      = computePageRankRanks proj st :=
    setPageRanks_zmembers proj st _ hnd hrne
  constructor
  · rw [hz, hsum]
    norm_num
  · intro id fields hget
    obtain ⟨s, hs, hsid⟩ := getAllSymbols_mem_of_get hwf hget
    have hsome := hcov s hs
    rw [hsid] at hsome
    obtain ⟨q, hq⟩ := Option.isSome_iff_exists.mp hsome
    refine ⟨q, ?_, ?_⟩
    · unfold Store.zscore
      rw [hz]
      exact hq
    · exact setPageRanks_mirror proj st _ hnd hrne (alookup_mem hq)

/-- Witness for C2 on a one-symbol store. -/
theorem C2_pagerank_sum_and_mirror_witness :
    SymsWF "p" c2Store ∧ getAllSymbols "p" c2Store ≠ [] ∧
    ((|(((computePageRank "p" c2Store).zmembers (k "p" "pagerank")).map
        (fun p => p.2)).sum - 1| ≤ 1 / 1000000000) ∧
    (∀ id fields, Store.get c2Store (k "p" ("symbol:" ++ id)) = some (RVal.hash fields) →
      ∃ q, (computePageRank "p" c2Store).zscore (k "p" "pagerank") id = some q ∧
        (computePageRank "p" c2Store).hfield (k "p" ("symbol:" ++ id)) "pageRank"
          = some (HVal.num q))) :=
  ⟨by unfold SymsWF; decide, by decide,
    C2_pagerank_sum_and_mirror "p" c2Store (by unfold SymsWF; decide) (by decide)⟩

/-- Helper: without a tracked map every file the scan loop reports carries no
hash — the hash is only computed in the incremental branch. -/
theorem scanFold_none_files_hash_none (excluded : String → Bool) (maxFileSize : ℕ)
    (hashOf : String → String) (incremental : Bool) :
    ∀ (entries : List FileEntry) (acc : List FileInfo × List FileInfo),
      (∀ f ∈ acc.1, f.hash = none) →
      ∀ f ∈ (entries.foldl (scanStep excluded maxFileSize hashOf incremental none) acc).1,
        f.hash = none := by
  intro entries
  induction entries with
  | nil => intro acc hacc; simpa using hacc
  | cons e rest ih =>
      intro acc hacc
      rw [List.foldl_cons]
      apply ih
      intro f hf
      unfold scanStep at hf
      by_cases h1 : excluded e.path
      · exact hacc f (by simpa [h1] using hf)
      · by_cases h2 : e.size > maxFileSize
        · exact hacc f (by simpa [h1, h2] using hf)
        · cases incremental <;>
          · have hf' : f ∈ acc.1 ∨
                f = { path := e.path, mtime := e.mtime, size := e.size, hash := none } := by
              simpa [h1, h2] using hf
            rcases hf' with hmem | rfl
            · exact hacc f hmem
            · rfl

/-- C3 (code bug, general form): whenever the incremental branch is not taken
(no `incremental` option, `force`, or no tracked files — in particular on
every first/full run), `indexProject` leaves the store untouched as far as
file tracking goes: the scan computes no hashes, `indexProject` strips `hash`
from `files`, and `updateFileTracking` filters on a truthy `hash`, so no
`FileTracking` record is ever written. -/
theorem C3_full_run_no_file_tracking (proj : String) (st : Store)
    (entries : List FileEntry) (excluded : String → Bool) (maxFileSize : ℕ)
    (hashOf : String → String) (force incrementalOpt : Bool)
    (hfull : incrementalOpt = false ∨ force = true ∨ getTrackedFiles proj st = []) :
    indexProjectFileTracking proj st entries excluded maxFileSize hashOf
      force incrementalOpt = st := by
  have hcond : ¬ ((incrementalOpt : Prop) ∧ ¬ (force : Prop) ∧
      getTrackedFiles proj st ≠ []) := by
    rcases hfull with h | h | h
    · subst h; simp
    · subst h; simp
    · intro hc; exact hc.2.2 h
  simp only [indexProjectFileTracking]
  rw [if_neg hcond]
  show updateFileTracking proj
    (((fullScanResult entries excluded maxFileSize hashOf).deleted).foldl
      (fun st path => st.del (k proj ("file:" ++ path))) st)
    (if (force : Prop) then (fullScanResult entries excluded maxFileSize hashOf).files
     else (fullScanResult entries excluded maxFileSize hashOf).changed) = st
  have hdel : (fullScanResult entries excluded maxFileSize hashOf).deleted = [] := rfl
  rw [hdel]
  simp only [List.foldl_nil]
  have hnone : ∀ f ∈ (if (force : Prop)
      then (fullScanResult entries excluded maxFileSize hashOf).files
      else (fullScanResult entries excluded maxFileSize hashOf).changed),
      f.hash = none := by
    by_cases hf : (force : Prop)
    · rw [if_pos hf]
      intro f hmem
      have : f ∈ (scan entries excluded maxFileSize hashOf false none).files.map
          (fun f => { f with hash := none }) := hmem
      rcases List.mem_map.mp this with ⟨g, _, rfl⟩
      rfl
    · rw [if_neg hf]
      intro f hmem
      exact scanFold_none_files_hash_none excluded maxFileSize hashOf false entries
        ([], []) (by simp) f hmem
  unfold updateFileTracking
  have hfilter : ((if (force : Prop)
      then (fullScanResult entries excluded maxFileSize hashOf).files
      else (fullScanResult entries excluded maxFileSize hashOf).changed).filter
      (fun f => match f.hash with
        | some h => h ≠ ""
        | none => false)) = [] := by
    rw [List.filter_eq_nil_iff]
    intro f hmem
    rw [hnone f hmem]
    simp
  rw [hfilter]
  rfl

/-- Witness for C3 on a concrete full run: an empty store, one candidate file,
neither `force` nor `incremental`; the run writes nothing, so no tracking
record for `/p/a.ts` exists afterwards. -/
theorem C3_full_run_no_file_tracking_witness :
    ((false : Bool) = false ∨ (false : Bool) = true ∨ getTrackedFiles "p" [] = []) ∧
    indexProjectFileTracking "p" [] [⟨"/p/a.ts", 5, 10⟩] (fun _ => false) 1000000
      (fun _ => "h") false false = [] :=
  ⟨Or.inl rfl,
    C3_full_run_no_file_tracking "p" [] [⟨"/p/a.ts", 5, 10⟩] (fun _ => false) 1000000
      (fun _ => "h") false false (Or.inl rfl)⟩

theorem getSymbol_id {proj : String} {st : Store} {id : String} {s : Sym}
    (hsym : SymsWF proj st) (h : getSymbol proj st id = some s) : s.id = id := by
  unfold getSymbol at h
  dsimp only at h
  by_cases hd : Store.hgetall st (k proj ("symbol:" ++ id)) = []
  · rw [if_pos hd] at h
    exact absurd h (by simp)
  · rw [if_neg hd] at h
    have hs : s = parseSym (Store.hgetall st (k proj ("symbol:" ++ id))) :=
      (Option.some.inj h).symm
    have hget : ∃ fields, Store.get st (k proj ("symbol:" ++ id))
        = some (RVal.hash fields) ∧
        Store.hgetall st (k proj ("symbol:" ++ id)) = fields := by
      unfold Store.hgetall at hd ⊢
      cases hg : Store.get st (k proj ("symbol:" ++ id)) with
      | none => rw [hg] at hd; simp at hd
      | some v =>
          cases v with
          | hash fields => exact ⟨fields, rfl, rfl⟩
          | set m => rw [hg] at hd; simp at hd
          | zset m => rw [hg] at hd; simp at hd
          | strv m => rw [hg] at hd; simp at hd
    obtain ⟨fields, hget', hfields⟩ := hget
    have hfid := (symsWF_field hsym hget').1
    rw [hs, hfields]
    simpa [parseSym] using hfid

theorem filterMap_getSymbol_map_id (proj : String) (st : Store)
    (hsym : SymsWF proj st) :
    ∀ res : List String,
      (res.filterMap (fun id => getSymbol proj st id)).map Sym.id
        = res.filter (fun id => (getSymbol proj st id).isSome) := by
  intro res
  induction res with
  | nil => rfl
  | cons id rest ih =>
      cases hg : getSymbol proj st id with
      | none => simp [List.filterMap_cons, hg, ih, List.filter_cons]
      | some s =>
          simp [List.filterMap_cons, hg, List.filter_cons, ih, getSymbol_id hsym hg]

theorem affectedFold_nodup (deps : List Dep) :
    ∀ (acc newNodes : List String), acc.Nodup →
      ((deps.foldl (fun p dep =>
        if dep.fromId ∈ p.1 then p else (p.1 ++ [dep.fromId], p.2 ++ [dep.fromId]))
        (acc, newNodes)).1).Nodup := by
  induction deps with
  | nil => intro acc _ h; exact h
  | cons dep rest ih =>
      intro acc newNodes h
      rw [List.foldl_cons]
      dsimp only
      by_cases hm : dep.fromId ∈ acc
      · rw [if_pos hm]
        exact ih _ _ h
      · rw [if_neg hm]
        refine ih _ _ ?_
        rw [List.nodup_append]
        exact ⟨h, by simp, fun a haa hax => hm ((List.mem_singleton.mp hax) ▸ haa)⟩

theorem affectedClosure_nodup (proj : String) (st : Store) :
    ∀ (fuel : ℕ) (toVisit acc : List String), acc.Nodup →
      (affectedClosure proj st fuel toVisit acc).Nodup := by
  intro fuel
  induction fuel with
  | zero => intro t a h; exact h
  | succ m ih =>
      intro toVisit acc h
      cases toVisit with
      | nil => exact h
      | cons cur rest =>
          show (affectedClosure proj st m
            (rest ++ ((getDependenciesTo proj st cur).foldl (fun p dep =>
              if dep.fromId ∈ p.1 then p
              else (p.1 ++ [dep.fromId], p.2 ++ [dep.fromId])) (acc, [])).2)
            ((getDependenciesTo proj st cur).foldl (fun p dep =>
              if dep.fromId ∈ p.1 then p
              else (p.1 ++ [dep.fromId], p.2 ++ [dep.fromId])) (acc, [])).1).Nodup
          exact ih _ _ (affectedFold_nodup _ _ _ h)

theorem impactAllAffected_nodup (proj : String) (st : Store)
    (symbolIds : List String) : (impactAllAffected proj st symbolIds).Nodup :=
  affectedClosure_nodup proj st _ _ _ (List.nodup_dedup symbolIds)

/-- Kahn's sort over the stored graph restricted to `nodeIds` never lists an
edge source after its target. -/
theorem topologicalSort_no_backward (proj : String) (st : Store)
    (nodeIds : List String) (hn : nodeIds.Nodup) (hsets : SetsWF st)
    (hsym : SymsWF proj st) (u v : String) (hedge : storedEdge proj st u v)
    (hu : u ∈ nodeIds) (l1 l2 : List String)
    (hsplit : (topologicalSort proj st nodeIds).map Sym.id = l1 ++ v :: l2) :
    u ∉ v :: l2 := by
  set adj : String → List String := fun id =>
    ((getDependenciesFrom proj st id).map (fun d => d.toId)).filter
      (fun t => decide (t ∈ nodeIds)) with hadj_def
  have ha : ∀ w, (adj w).Nodup := by
    intro w
    rw [hadj_def]
    refine List.Nodup.filter _ ?_
    rw [getDependenciesFrom_toIds]
    exact smembers_nodup hsets _
  have hsub : ∀ a b, b ∈ adj a → b ∈ nodeIds := by
    intro a b hb
    rw [hadj_def] at hb
    simpa using (List.mem_filter.mp hb).2
  have hout : KahnOut adj nodeIds (kahnLoop adj (nodeIds.length + 1)
      (nodeIds.filter (fun id => decide (buildDeg adj nodeIds id = 0)))
      (buildDeg adj nodeIds) []) :=
    kahnLoop_out adj nodeIds hn ha hsub _ _ _ _ (kahnInit_inv adj nodeIds hn ha)
  have horder : topologicalSort proj st nodeIds
      = (kahnLoop adj (nodeIds.length + 1)
          (nodeIds.filter (fun id => decide (buildDeg adj nodeIds id = 0)))
          (buildDeg adj nodeIds) []).filterMap (fun id => getSymbol proj st id) := rfl
  rw [horder, filterMap_getSymbol_map_id proj st hsym] at hsplit
  have hvord : v ∈ (kahnLoop adj (nodeIds.length + 1)
      (nodeIds.filter (fun id => decide (buildDeg adj nodeIds id = 0)))
      (buildDeg adj nodeIds) []).filter
        (fun id => (getSymbol proj st id).isSome) := by
    rw [hsplit]
    exact List.mem_append_right _ (List.mem_cons_self _ _)
  have hvres := List.mem_of_mem_filter hvord
  have hvnid : v ∈ nodeIds := hout.sub v hvres
  have hvadj : v ∈ adj u := by
    rw [hadj_def]
    refine List.mem_filter.mpr ⟨?_, by simpa using hvnid⟩
    rw [getDependenciesFrom_toIds]
    exact hedge
  intro hin
  rcases List.mem_cons.mp hin with heq | hl2
  · subst heq
    exact hout.noself u hvres ⟨hvnid, hvadj⟩
  · have hpair : List.Pairwise (noBack adj nodeIds) (l1 ++ v :: l2) := by
      rw [← hsplit]
      exact hout.pairwise.sublist (List.filter_sublist _)
    have h2 := (List.pairwise_append.mp hpair).2.1
    have h3 := (List.pairwise_cons.mp h2).1 u hl2
    exact h3 ⟨hu, hvadj⟩

/-- C6: the `suggestedOrder` returned by impact analysis contains no pair
`u`, `v` with a stored edge `u → v` among the affected set and `u` after `v`:
wherever the order splits around `v`, the edge source `u` is neither `v`
itself nor in the tail after it. -/
theorem C6_suggested_order_topological (proj : String) (st : Store)
    (symbolIds : List String) (hsets : SetsWF st) (hsym : SymsWF proj st)
    (u v : String) (hedge : storedEdge proj st u v)
    (hu : u ∈ impactAllAffected proj st symbolIds) (l1 l2 : List String)
    (hsplit : (analyzeImpactSuggestedOrder proj st symbolIds).map Sym.id
      = l1 ++ v :: l2) :
    u ∉ v :: l2 :=
  topologicalSort_no_backward proj st (impactAllAffected proj st symbolIds)
    (impactAllAffected_nodup proj st symbolIds) hsets hsym u v hedge hu l1 l2 hsplit

/-- Witness for C6 on the `X → Y → Z` store: the suggested order is
`[X, Y, Z]` and the edge source `X` (edge `X → Y`) does not appear after
`Y`. -/
theorem C6_suggested_order_topological_witness :
    (SetsWF c7Store ∧ SymsWF "p" c7Store ∧
      storedEdge "p" c7Store "/p/f.ts:X:1" "/p/f.ts:Y:2" ∧
      "/p/f.ts:X:1" ∈ impactAllAffected "p" c7Store
        ["/p/f.ts:X:1", "/p/f.ts:Y:2", "/p/f.ts:Z:3"] ∧
      (analyzeImpactSuggestedOrder "p" c7Store
        ["/p/f.ts:X:1", "/p/f.ts:Y:2", "/p/f.ts:Z:3"]).map Sym.id
        = ["/p/f.ts:X:1"] ++ "/p/f.ts:Y:2" :: ["/p/f.ts:Z:3"]) ∧
    "/p/f.ts:X:1" ∉ "/p/f.ts:Y:2" :: ["/p/f.ts:Z:3"] :=
  ⟨⟨by unfold SetsWF; decide, by unfold SymsWF; decide,
    by unfold storedEdge; decide, by decide, by rfl⟩,
    C6_suggested_order_topological "p" c7Store
      ["/p/f.ts:X:1", "/p/f.ts:Y:2", "/p/f.ts:Z:3"]
      (by unfold SetsWF; decide) (by unfold SymsWF; decide)
      "/p/f.ts:X:1" "/p/f.ts:Y:2" (by unfold storedEdge; decide) (by decide)
      ["/p/f.ts:X:1"] ["/p/f.ts:Z:3"] (by rfl)⟩

end CodeSage
